import Mathlib

/-!
Verification of the Pylon power-system library (numerical core).

This file gives a shallow embedding, over the rationals, of the parts of
the Pylon code base relevant to the checked claims:

* `pylon/pdipm.py` — the generic primal-dual interior-point solver
  (convergence diagnostics, the ratio test for the step lengths);
* `pylon/routine/newton_pf.py` — the Newton-Raphson power-flow routine
  (mismatch evaluation, convergence check, solve driver);
* `pylon/case.py` — the network model (`Case.B` susceptance construction,
  `Case.get_admittance_matrix`, `Branch.__init__`, the `reset` methods);
* `pylon/opf.py` — the OPF model builder (`OPFModel.add_var`,
  `OPFModel.add_constraint`, `OPFModel.linear_constraints`,
  `OPF._construct_opf_model` / `OPF._ref_check`).

Machine floats are modelled by `ℚ`; the floating-point `±Inf` bound
sentinels are modelled by the three-valued type `XR`.  Python operations
that can raise `ZeroDivisionError` are modelled with `Option`-valued
division where the claim is about that very failure.
-/

namespace Pylon

/-! ### Basic vector helpers (cvxopt/numpy operations on column vectors) -/

/-- Infinity norm `norm(v, Inf)` of a vector: `max |v_i|` (`0` for the
empty vector, matching `numpy.linalg.norm` on an empty input). -/
def normInf (v : List ℚ) : ℚ := (v.map (fun a => |a|)).foldr max 0

/-- Python's built-in `max` over the entries of a nonempty vector.
The `[]` case is junk (Python raises `ValueError` there). -/
def maxEntry : List ℚ → ℚ
  | [] => 0
  | a :: t => t.foldl max a

/-- Python's built-in `min` over the entries of a nonempty vector.
The `[]` case is junk (Python raises `ValueError` there). -/
def minEntry : List ℚ → ℚ
  | [] => 0
  | a :: t => t.foldl min a

/-- Dot product `x.T * y` of two column vectors. -/
def dot (x y : List ℚ) : ℚ := (List.zipWith (· * ·) x y).sum

/-! #### Small facts about `minEntry` -/

theorem foldl_min_le_init (t : List ℚ) (a : ℚ) : t.foldl min a ≤ a := by
  induction t generalizing a with
  | nil => exact le_refl a
  | cons b t ih => exact le_trans (ih (min a b)) (min_le_left a b)

theorem foldl_min_le_mem {t : List ℚ} {x : ℚ} (hx : x ∈ t) (a : ℚ) :
    t.foldl min a ≤ x := by
  induction t generalizing a with
  | nil => cases hx
  | cons b t ih =>
    rcases List.mem_cons.mp hx with h | h
    · subst h
      exact le_trans (foldl_min_le_init t (min a x)) (min_le_right a x)
    · exact ih h (min a b)

theorem minEntry_le_mem {l : List ℚ} {x : ℚ} (hx : x ∈ l) : minEntry l ≤ x := by
  cases l with
  | nil => cases hx
  | cons a t =>
    rcases List.mem_cons.mp hx with h | h
    · subst h; exact foldl_min_le_init t x
    · exact foldl_min_le_mem h a

theorem lt_foldl_min {t : List ℚ} {a c : ℚ} (ha : c < a)
    (ht : ∀ x ∈ t, c < x) : c < t.foldl min a := by
  induction t generalizing a with
  | nil => exact ha
  | cons b t ih =>
    exact ih (lt_min ha (ht b (List.mem_cons_self b t)))
      (fun x hx => ht x (List.mem_cons_of_mem b hx))

theorem minEntry_pos {l : List ℚ} (hne : l ≠ [])
    (hp : ∀ x ∈ l, 0 < x) : 0 < minEntry l := by
  cases l with
  | nil => cases hne rfl
  | cons a t =>
    exact lt_foldl_min (hp a (List.mem_cons_self a t))
      (fun x hx => hp x (List.mem_cons_of_mem a hx))

theorem mem_zipWith_exists {α β γ : Type} {f : α → β → γ}
    {l₁ : List α} {l₂ : List β} {c : γ} (h : c ∈ List.zipWith f l₁ l₂) :
    ∃ p ∈ l₁.zip l₂, c = f p.1 p.2 := by
  induction l₁ generalizing l₂ with
  | nil => cases h
  | cons a t ih =>
    cases l₂ with
    | nil => cases h
    | cons b s =>
      rcases List.mem_cons.mp h with h | h
      · exact ⟨(a, b), List.mem_cons_self _ _, h⟩
      · rcases ih h with ⟨p, hp, hc⟩
        exact ⟨p, List.mem_cons_of_mem _ hp, hc⟩

/-! ### `pdipm.py` — the interior-point ratio test (lines 228-237)

```
k = nonzero(dz < 0)
alphap = min( matrix([xi * min(div(z(k), -dz(k))), 1]) )
k = nonzero(dmu < 0)
alphad = min( matrix([xi * min(div(mu(k), -dmu(k))), 1]) )
x = x + alphap * dx
z = z + alphap * dz
lam = lam + alphad * dlam
mu  = mu  + alphad * dmu
```
-/

/-- The safety factor `xi = 0.99995` of `pdipm` (line 78). -/
def xi : ℚ := 99995 / 100000

/-- `div(z(k), -dz(k))` for `k = nonzero(dz < 0)`: the ratios `v_k / (-dv_k)`
over the components where the direction `dv` is negative. -/
def negRatios (v dv : List ℚ) : List ℚ :=
  (v.zip dv).filterMap (fun p => if p.2 < 0 then some (p.1 / (-p.2)) else none)

/-- `alphap = min( matrix([xi * min(div(z(k), -dz(k))), 1]) )` — the primal
(resp. dual, with `mu`/`dmu`) interior-point step length.  Only meaningful
when `dv` has a negative component (otherwise Python's `min` of an empty
matrix raises). -/
def stepLength (v dv : List ℚ) : ℚ := min (xi * minEntry (negRatios v dv)) 1

/-- `z + alphap * dz` (resp. `mu + alphad * dmu`): the slack/multiplier
update with the computed step length. -/
def stepUpdate (v dv : List ℚ) : List ℚ :=
  List.zipWith (fun a b => a + stepLength v dv * b) v dv

theorem negRatios_pos {v dv : List ℚ} (hpos : ∀ a ∈ v, 0 < a) :
    ∀ r ∈ negRatios v dv, 0 < r := by
  intro r hr
  rcases List.mem_filterMap.mp hr with ⟨p, hp, he⟩
  by_cases hneg : p.2 < 0
  · simp only [if_pos hneg] at he
    cases he
    exact div_pos (hpos p.1 (List.of_mem_zip hp).1) (neg_pos.mpr hneg)
  · simp [if_neg hneg] at he

theorem negRatios_ne_nil {v dv : List ℚ} (hlen : v.length = dv.length)
    (hneg : ∃ b ∈ dv, b < 0) : negRatios v dv ≠ [] := by
  rcases hneg with ⟨b, hb, hbneg⟩
  rcases List.mem_iff_getElem.mp hb with ⟨i, hi, rfl⟩
  have hiv : i < v.length := by omega
  have hzip : i < (v.zip dv).length := by
    rw [List.length_zip]; omega
  have hmem : (v[i], dv[i]) ∈ v.zip dv := by
    have : (v.zip dv)[i] = (v[i], dv[i]) := List.getElem_zip
    rw [← this]
    exact List.getElem_mem _
  intro hnil
  have : v[i] / (-dv[i]) ∈ negRatios v dv :=
    List.mem_filterMap.mpr ⟨(v[i], dv[i]), hmem, by simp [hbneg]⟩
  rw [hnil] at this
  cases this

theorem stepLength_pos {v dv : List ℚ} (hlen : v.length = dv.length)
    (hpos : ∀ a ∈ v, 0 < a) (hneg : ∃ b ∈ dv, b < 0) :
    0 < stepLength v dv := by
  have h1 : 0 < minEntry (negRatios v dv) :=
    minEntry_pos (negRatios_ne_nil hlen hneg) (negRatios_pos hpos)
  have hxi : (0 : ℚ) < xi := by norm_num [xi]
  exact lt_min (mul_pos hxi h1) one_pos

theorem stepLength_lt_ratio {v dv : List ℚ} (hpos : ∀ a ∈ v, 0 < a)
    {a b : ℚ} (hmem : (a, b) ∈ v.zip dv) (hb : b < 0) :
    stepLength v dv < a / (-b) := by
  have hra : a / (-b) ∈ negRatios v dv :=
    List.mem_filterMap.mpr ⟨(a, b), hmem, by simp [hb]⟩
  have hrpos : 0 < a / (-b) := negRatios_pos hpos _ hra
  have h1 : minEntry (negRatios v dv) ≤ a / (-b) := minEntry_le_mem hra
  have hxi : xi < 1 := by norm_num [xi]
  calc stepLength v dv ≤ xi * minEntry (negRatios v dv) := min_le_left _ _
    _ ≤ xi * (a / (-b)) := by
        apply mul_le_mul_of_nonneg_left h1 (by norm_num [xi])
    _ < 1 * (a / (-b)) := by exact mul_lt_mul_of_pos_right hxi hrpos
    _ = a / (-b) := one_mul _

/-- **C3.** At every `pdipm` iteration whose step direction `dz` (resp.
`dmu`) has a negative component, the step length is
`min(1, 0.99995 · min_k z_k/(-dz_k))` over those components, and — provided
the current slack/multiplier vector is strictly positive, as the algorithm
maintains — every component of the updated vector `z + alphap * dz`
(resp. `mu + alphad * dmu`) is strictly positive. -/
theorem pdipm_step_keeps_positive (v dv : List ℚ)
    (hlen : v.length = dv.length)
    (hpos : ∀ a ∈ v, 0 < a)
    (hneg : ∃ b ∈ dv, b < 0) :
    stepLength v dv = min 1 (xi * minEntry (negRatios v dv)) ∧
    ∀ c ∈ stepUpdate v dv, 0 < c := by
  constructor
  · exact min_comm _ _
  · intro c hc
    rcases mem_zipWith_exists hc with ⟨⟨a, b⟩, hp, rfl⟩
    have ha : 0 < a := hpos a (List.of_mem_zip hp).1
    have halpha : 0 < stepLength v dv := stepLength_pos hlen hpos hneg
    by_cases hb : b < 0
    · have hlt : stepLength v dv < a / (-b) := stepLength_lt_ratio hpos hp hb
      have hnb : 0 < -b := neg_pos.mpr hb
      have : stepLength v dv * (-b) < (a / (-b)) * (-b) :=
        mul_lt_mul_of_pos_right hlt hnb
      rw [div_mul_cancel₀ a (ne_of_gt hnb)] at this
      nlinarith
    · push_neg at hb
      have : 0 ≤ stepLength v dv * b := mul_nonneg (le_of_lt halpha) hb
      linarith

/-- Witness for `pdipm_step_keeps_positive` at `z = [1]`, `dz = [-1]`. -/
theorem pdipm_step_keeps_positive_witness :
    stepLength [(1 : ℚ)] [(-1 : ℚ)] =
      min 1 (xi * minEntry (negRatios [(1 : ℚ)] [(-1 : ℚ)])) ∧
    ∀ c ∈ stepUpdate [(1 : ℚ)] [(-1 : ℚ)], 0 < c :=
  pdipm_step_keeps_positive [1] [-1] rfl (by decide) (by decide)

/-! ### Extended rationals

The code stores `±Inf` sentinels in variable/constraint bound vectors
(`ones(N) * Inf` etc.).  `XR` models a float that is either `-Inf`, a
finite value, or `+Inf`. -/

inductive XR where
  | ninf : XR
  | fin : ℚ → XR
  | pinf : XR
deriving DecidableEq, Repr

/-! ### `opf.py` — the OPF model builder (`OPFModel` and friends)

`Variable`, `LinearConstraint` and `NonLinearConstraint` mirror the
classes of the same names (block coefficient matrices are modelled as
total functions `ℕ → ℕ → ℚ`, zero outside the block's extent, which is
how `scipy.sparse` matrices behave as storage). -/

structure Variable where
  name : String
  N : ℕ
  v0 : List ℚ := []
  vl : List XR := []
  vu : List XR := []
  i1 : ℕ := 0
  iN : ℕ := 0
deriving DecidableEq, Repr

structure LinearConstraint where
  name : String
  /-- Number of rows, `N, M = con.A.size`. -/
  N : ℕ
  /-- Number of columns of the block's own matrix `A`. -/
  M : ℕ
  /-- The block coefficient matrix `A` (row, col ↦ entry). -/
  A : ℕ → ℕ → ℚ
  /-- Row lower bounds `l` (length `N`). -/
  l : ℕ → XR
  /-- Row upper bounds `u` (length `N`). -/
  u : ℕ → XR
  /-- `vs`: ordered list of the names of the variable blocks whose columns
  this block's matrix addresses. -/
  vs : List String
  i1 : ℕ := 0
  iN : ℕ := 0

structure NonLinearConstraint where
  name : String
  N : ℕ
  i1 : ℕ := 0
  iN : ℕ := 0
deriving DecidableEq, Repr

/-- A constraint is either linear or non-linear (the `isinstance` dispatch
in `OPFModel.add_constraint`). -/
inductive Constraint where
  | lin : LinearConstraint → Constraint
  | nln : NonLinearConstraint → Constraint

structure OPFModel where
  vars : List Variable
  lin_constraints : List LinearConstraint
  nln_constraints : List NonLinearConstraint

/-- The empty model produced by `OPFModel.__init__`. -/
def OPFModel.empty : OPFModel := ⟨[], [], []⟩

/-- `OPFModel.var_N`: total number of variables. -/
def OPFModel.var_N (m : OPFModel) : ℕ := (m.vars.map Variable.N).sum

/-- `OPFModel.lin_N`: total number of linear constraint rows. -/
def OPFModel.lin_N (m : OPFModel) : ℕ :=
  (m.lin_constraints.map LinearConstraint.N).sum

/-- `OPFModel.nln_N`: total number of non-linear constraint rows. -/
def OPFModel.nln_N (m : OPFModel) : ℕ :=
  (m.nln_constraints.map NonLinearConstraint.N).sum

/-- `OPFModel.add_var`: if a variable set with the same name exists the
operation only logs an error; otherwise the block is appended with its
offset range assigned from the running total.  (`var.iN = var.i1 + var.N - 1`
in Python ints; the `iN` field is that value for `N ≥ 1`.) -/
def OPFModel.add_var (m : OPFModel) (v : Variable) : OPFModel :=
  if v.name ∈ m.vars.map Variable.name then m
  else { m with vars :=
          m.vars ++ [{ v with i1 := m.var_N, iN := m.var_N + v.N - 1 }] }

/-- `OPFModel.add_vars`. -/
def OPFModel.add_vars (m : OPFModel) (vs : List Variable) : OPFModel :=
  vs.foldl OPFModel.add_var m

/-- `OPFModel.get_var`: the variable set with the given name (`none`
models the `raise ValueError` branch). -/
def OPFModel.get_var (m : OPFModel) (name : String) : Option Variable :=
  m.vars.find? (fun v => v.name = name)

/-- `OPFModel.add_constraint`: duplicate names are logged and rejected
(`return False`); otherwise the block is appended with its row offset
range assigned from the running total.  The column-count check for linear
blocks only logs — it does not reject.  Returns the updated model and the
Python return value (`True`/`False`). -/
def OPFModel.add_constraint (m : OPFModel) (con : Constraint) :
    OPFModel × Bool :=
  match con with
  | .lin c =>
    if c.name ∈ m.lin_constraints.map LinearConstraint.name then (m, false)
    else ({ m with lin_constraints :=
             m.lin_constraints ++
               [{ c with i1 := m.lin_N, iN := m.lin_N + c.N - 1 }] }, true)
  | .nln c =>
    if c.name ∈ m.nln_constraints.map NonLinearConstraint.name then (m, false)
    else ({ m with nln_constraints :=
             m.nln_constraints ++
               [{ c with i1 := m.nln_N, iN := m.nln_N + c.N }] }, true)

/-- `OPFModel.add_constraints`. -/
def OPFModel.add_constraints (m : OPFModel) (cs : List Constraint) : OPFModel :=
  cs.foldl (fun m c => (m.add_constraint c).1) m

/-- **C7.** Adding a variable block or a constraint block (linear or
non-linear) whose name coincides with an already-added block of the same
kind is a no-op: the model is returned completely unchanged (same block
lists, hence same assigned offsets and the same variable and row totals),
and `add_constraint` returns `False` instead of raising. -/
theorem add_duplicate_name_noop (m : OPFModel) (v : Variable)
    (c : LinearConstraint) (nc : NonLinearConstraint)
    (hv : v.name ∈ m.vars.map Variable.name)
    (hc : c.name ∈ m.lin_constraints.map LinearConstraint.name)
    (hn : nc.name ∈ m.nln_constraints.map NonLinearConstraint.name) :
    m.add_var v = m ∧
    m.add_constraint (.lin c) = (m, false) ∧
    m.add_constraint (.nln nc) = (m, false) ∧
    (m.add_var v).var_N = m.var_N ∧
    (m.add_constraint (.lin c)).1.lin_N = m.lin_N := by
  have h1 : m.add_var v = m := by simp [OPFModel.add_var, hv]
  have h2 : m.add_constraint (.lin c) = (m, false) := by
    simp [OPFModel.add_constraint, hc]
  have h3 : m.add_constraint (.nln nc) = (m, false) := by
    simp [OPFModel.add_constraint, hn]
  exact ⟨h1, h2, h3, by rw [h1], by rw [h2]⟩

/-- Witness for `add_duplicate_name_noop`: a model holding a `"Va"`
variable block and `"Pmis"` / `"Pf"` constraint blocks, re-adding blocks
with those names. -/
theorem add_duplicate_name_noop_witness :
    (OPFModel.add_var
        ⟨[⟨"Va", 2, [], [], [], 0, 1⟩],
         [⟨"Pmis", 1, 2, fun _ _ => 1, fun _ => .fin 0, fun _ => .fin 0,
            ["Va"], 0, 0⟩],
         [⟨"Sf", 3, 0, 2⟩]⟩
        ⟨"Va", 5, [], [], [], 0, 0⟩ =
      ⟨[⟨"Va", 2, [], [], [], 0, 1⟩],
       [⟨"Pmis", 1, 2, fun _ _ => 1, fun _ => .fin 0, fun _ => .fin 0,
          ["Va"], 0, 0⟩],
       [⟨"Sf", 3, 0, 2⟩]⟩) :=
  (add_duplicate_name_noop _ _
    ⟨"Pmis", 4, 9, fun _ _ => 7, fun _ => .ninf, fun _ => .pinf, [], 0, 0⟩
    ⟨"Sf", 1, 0, 0⟩
    (by simp) (by simp) (by simp)).1

/-! ### `case.py` — the network model -/

/-- A `Bus` with the fields consumed by the matrix-construction code and
the solver-written result fields that `Bus.reset` zeroes.  `i` is the bus
index attribute read by `OPF._ref_check`. -/
structure Bus where
  type : String := "PQ"
  i : ℕ := 0
  g_shunt : ℚ := 0
  b_shunt : ℚ := 0
  v_magnitude : ℚ := 0
  v_angle : ℚ := 0
  p_lambda : ℚ := 0
  q_lambda : ℚ := 0
  mu_vmin : ℚ := 0
  mu_vmax : ℚ := 0
deriving DecidableEq, Repr

/-- A `Branch` with the fields consumed by the matrix-construction code.
Endpoint bus references are modelled by their positions in the case's
bus list (the code recovers those positions with `buses.index(...)`). -/
structure Branch where
  from_bus : ℕ
  to_bus : ℕ
  online : Bool := true
  r : ℚ := 1/1000
  x : ℚ := 1/1000
  b : ℚ := 1/1000
  ratio : ℚ := 1
  phase_shift : ℚ := 0
  p_from : ℚ := 0
  p_to : ℚ := 0
  q_from : ℚ := 0
  q_to : ℚ := 0
  mu_s_from : ℚ := 0
  mu_s_to : ℚ := 0
deriving DecidableEq, Repr

/-- A `Generator` with the fields touched by `Generator.reset`. -/
structure Generator where
  bus : ℕ := 0
  online : Bool := true
  mu_pmin : ℚ := 0
  mu_pmax : ℚ := 0
deriving DecidableEq, Repr

/-- A `Case`: buses, branches, generators and the system base power. -/
structure Case where
  buses : List Bus
  branches : List Branch
  generators : List Generator := []
  base_mva : ℚ := 100
deriving DecidableEq, Repr

/-- `Case.connected_buses`: buses whose type is not `"isolated"`. -/
def Case.connected_buses (c : Case) : List Bus :=
  c.buses.filter (fun bus => bus.type ≠ "isolated")

/-- `Case.online_branches`: in-service branches. -/
def Case.online_branches (c : Case) : List Branch :=
  c.branches.filter (fun br => br.online)

/-- Elementwise float division; `none` models the division-by-zero
failure Python/cvxopt raise for a zero divisor. -/
def safeDiv (a b : ℚ) : Option ℚ :=
  if b = 0 then none else some (a / b)

/-- The series-susceptance step of the `Case.B` property (case.py lines
326-328): over the in-service branches,
`b = div(online, matrix([br.x for br in branches]))`, i.e. `1/x`
per branch with no guard on `x = 0`. -/
def Case.seriesSusceptance (c : Case) : Option (List ℚ) :=
  let branches := c.online_branches
  branches.mapM (fun br => safeDiv (if br.online then 1 else 0) br.x)

/-- The large finite susceptance `BIGNUM = 1e12` (case.py line 49). -/
def BIGNUM : ℚ := 10 ^ 12

/-- The per-branch susceptance as the spec describes it (and as the
commented-out block of `Case.B`, case.py lines 374-378, once computed it):
`B = 1/x`, with the large finite value `BIGNUM` substituted for a branch
whose reactance is exactly zero.  This definition follows the spec's
words, for comparison against `Case.seriesSusceptance`. -/
def Case.seriesSusceptanceSpec (c : Case) : List ℚ :=
  c.online_branches.map (fun br => if br.x = 0 then BIGNUM else 1 / br.x)

/-- A case with a single online branch of exactly zero series reactance. -/
def zeroReactanceCase : Case :=
  { buses := [{ type := "ref" }, {}],
    branches := [{ from_bus := 0, to_bus := 1, x := 0 }] }

/-- **C5.** The claim fails on the code: for a Case containing an online
branch with `x = 0`, the live `Case.B` susceptance computation divides by
zero (the guarded substitution only survives in a commented-out block),
instead of producing the large finite value the spec requires. -/
theorem case_B_divides_by_zero :
    zeroReactanceCase.seriesSusceptance = none ∧
    zeroReactanceCase.seriesSusceptanceSpec = [BIGNUM] := by
  constructor <;> rfl

/-! ### `case.py` — `Branch.__init__` (lines 705-758) as an attribute store

Python object construction is a sequence of `self.<attr> = <value>`
assignments; reading a never-assigned attribute raises `AttributeError`.
The constructor is modelled by its exact assignment trace. -/

/-- A Python attribute value (only the shapes `Branch.__init__` stores). -/
inductive PyVal where
  | pyNone : PyVal
  | pyBool : Bool → PyVal
  | num : ℚ → PyVal
  | str : String → PyVal
  | busRef : ℕ → PyVal
deriving DecidableEq, Repr

/-- `None`-or-number argument (`ang_min=None, ang_max=None` defaults). -/
def optNum : Option ℚ → PyVal
  | some q => .num q
  | none => .pyNone

/-- `None`-or-string argument. -/
def optStr : Option String → PyVal
  | some s => .str s
  | none => .pyNone

/-- The assignment trace of `Branch.__init__`, in source order.  Note
lines 739 and 742: both assign `ang_min` (the second sits under the
"Maximum voltage angle difference" comment), and `ang_max` is never
assigned. -/
def branchInitAssigns (from_bus to_bus : ℕ) (name : Option String)
    (online : Bool) (r x b s_max ratio phase_shift : ℚ)
    (ang_min ang_max : Option ℚ) : List (String × PyVal) :=
  [("from_bus", .busRef from_bus),
   ("to_bus", .busRef to_bus),
   ("name", optStr name),
   ("online", .pyBool online),
   ("r", .num r),
   ("x", .num x),
   ("b", .num b),
   ("s_max", .num s_max),
   ("ratio", .num ratio),
   ("phase_shift", .num phase_shift),
   ("ang_min", optNum ang_min),
   ("ang_min", optNum ang_min),
   ("p_from", .num 0),
   ("p_to", .num 0),
   ("q_from", .num 0),
   ("q_to", .num 0),
   ("mu_s_from", .num 0),
   ("mu_s_to", .num 0)]

/-- Attribute lookup: the value of the last assignment to `attr`, or
`none` (Python's `AttributeError`) when `attr` was never assigned. -/
def getAttr (assigns : List (String × PyVal)) (attr : String) : Option PyVal :=
  (assigns.reverse.find? (fun p => p.1 = attr)).map Prod.snd

/-- The read `b.ang_max` performed by `OPF._voltage_angle_diff_limit`
(opf.py lines 324-330) when angle limits are not ignored. -/
def angMaxRead (assigns : List (String × PyVal)) : Option PyVal :=
  getAttr assigns "ang_max"

/-- **C10.** For every argument tuple, `Branch.__init__` assigns the
`ang_min` argument to the `ang_min` field twice and never assigns the
`ang_max` argument anywhere: the constructed object stores `ang_min` and
has no `ang_max` attribute, so the read `branch.ang_max` performed when
building the voltage-angle-difference limit constraint yields
`AttributeError` (`none`). -/
theorem branch_init_drops_ang_max (from_bus to_bus : ℕ) (name : Option String)
    (online : Bool) (r x b s_max ratio phase_shift : ℚ)
    (ang_min ang_max : Option ℚ) :
    ((branchInitAssigns from_bus to_bus name online r x b s_max ratio
        phase_shift ang_min ang_max).map Prod.fst).count "ang_min" = 2 ∧
    getAttr (branchInitAssigns from_bus to_bus name online r x b s_max ratio
        phase_shift ang_min ang_max) "ang_min" = some (optNum ang_min) ∧
    angMaxRead (branchInitAssigns from_bus to_bus name online r x b s_max
        ratio phase_shift ang_min ang_max) = none := by
  refine ⟨?_, ?_, ?_⟩ <;> rfl

/-! ### Complex numbers over `ℚ`

cvxopt `'z'`-typecode matrices hold machine complex numbers; they are
modelled by pairs of rationals with exact complex arithmetic. -/

structure Cx where
  re : ℚ
  im : ℚ
deriving DecidableEq, Repr

namespace Cx

theorem ext_iff {z w : Cx} : z = w ↔ z.re = w.re ∧ z.im = w.im := by
  cases z; cases w; simp

instance : Zero Cx := ⟨⟨0, 0⟩⟩
instance : One Cx := ⟨⟨1, 0⟩⟩
instance : Add Cx := ⟨fun z w => ⟨z.re + w.re, z.im + w.im⟩⟩
instance : Neg Cx := ⟨fun z => ⟨-z.re, -z.im⟩⟩
instance : Sub Cx := ⟨fun z w => ⟨z.re - w.re, z.im - w.im⟩⟩
instance : Mul Cx :=
  ⟨fun z w => ⟨z.re * w.re - z.im * w.im, z.re * w.im + z.im * w.re⟩⟩

@[simp] theorem zero_re : (0 : Cx).re = 0 := rfl
@[simp] theorem zero_im : (0 : Cx).im = 0 := rfl
@[simp] theorem one_re : (1 : Cx).re = 1 := rfl
@[simp] theorem one_im : (1 : Cx).im = 0 := rfl
@[simp] theorem add_re (z w : Cx) : (z + w).re = z.re + w.re := rfl
@[simp] theorem add_im (z w : Cx) : (z + w).im = z.im + w.im := rfl
@[simp] theorem neg_re (z : Cx) : (-z).re = -z.re := rfl
@[simp] theorem neg_im (z : Cx) : (-z).im = -z.im := rfl
@[simp] theorem sub_re (z w : Cx) : (z - w).re = z.re - w.re := rfl
@[simp] theorem sub_im (z w : Cx) : (z - w).im = z.im - w.im := rfl
@[simp] theorem mul_re (z w : Cx) :
    (z * w).re = z.re * w.re - z.im * w.im := rfl
@[simp] theorem mul_im (z w : Cx) :
    (z * w).im = z.re * w.im + z.im * w.re := rfl

instance : AddCommGroup Cx where
  add_assoc := by intros; rw [ext_iff]; constructor <;> simp <;> ring
  zero_add := by intros; rw [ext_iff]; constructor <;> simp
  add_zero := by intros; rw [ext_iff]; constructor <;> simp
  add_comm := by intros; rw [ext_iff]; constructor <;> simp <;> ring
  neg_add_cancel := by intros; rw [ext_iff]; constructor <;> simp
  sub_eq_add_neg := by intros; rw [ext_iff]; constructor <;> simp <;> ring
  nsmul := nsmulRec
  zsmul := zsmulRec

theorem mul_one' (z : Cx) : z * 1 = z := by
  rw [ext_iff]; constructor <;> simp

theorem one_mul' (z : Cx) : (1 : Cx) * z = z := by
  rw [ext_iff]; constructor <;> simp

/-- Complex conjugate (`conj(A)` in the code). -/
def conj (z : Cx) : Cx := ⟨z.re, -z.im⟩

@[simp] theorem conj_re (z : Cx) : z.conj.re = z.re := rfl
@[simp] theorem conj_im (z : Cx) : z.conj.im = -z.im := rfl

theorem conj_one : conj 1 = 1 := by rw [ext_iff]; constructor <;> simp

/-- `|z|² = re² + im²`. -/
def normSq (z : Cx) : ℚ := z.re * z.re + z.im * z.im

/-- Complex reciprocal `conj z / |z|²` (gives `0` at `0`; theorems about
code paths where Python would raise carry nonzero-denominator
hypotheses). -/
def inv (z : Cx) : Cx := ⟨z.re / normSq z, -z.im / normSq z⟩

/-- Complex division `a / b = a * inv b`. -/
def div (a b : Cx) : Cx := a * inv b

theorem inv_one : inv 1 = 1 := by
  rw [ext_iff]; constructor <;> simp [inv, normSq]

theorem div_one' (z : Cx) : div z 1 = z := by
  rw [div, inv_one, mul_one']

/-- Scale by a rational (`q` as the complex number `⟨q, 0⟩`). -/
def ofQ (q : ℚ) : Cx := ⟨q, 0⟩

/-- The imaginary unit `j = 0 + 1j`. -/
def jay : Cx := ⟨0, 1⟩

end Cx

/-! ### Complex vectors and matrices -/

/-- Dot product of a matrix row with a vector. -/
def cxDot (row v : List Cx) : Cx := (List.zipWith (· * ·) row v).sum

/-- Matrix-vector product `Y * v`, `Y` given as its list of rows. -/
def matVec (Y : List (List Cx)) (v : List Cx) : List Cx :=
  Y.map (fun row => cxDot row v)

/-! ### `routine/newton_pf.py` — mismatch, convergence check, solve

`NewtonPFRoutine._evaluate_function` (lines 360-374):
```
mismatch = mul(v, conj(self.Y * v)) - self.s_surplus
real = mismatch[self.pvpq_idxs].real()
imag = mismatch[self.pq_idxs].imag()
self.f = f = matrix([real, imag])
```
`NewtonPFRoutine._check_convergence` (lines 380-396):
```
normF = max(abs(F))
if normF < self.tolerance: self.converged = True else: ... False
```
-/

/-- `mismatch = mul(v, conj(Y * v)) - s_surplus`. -/
def mismatch (Y : List (List Cx)) (v s : List Cx) : List Cx :=
  List.zipWith (· - ·)
    (List.zipWith (fun a b => a * Cx.conj b) v (matVec Y v)) s

/-- Row selection `m[idxs]` of a column vector (the code indexes with a
cvxopt index matrix; entries are junk `0` out of range). -/
def idxSelect (l : List Cx) (idxs : List ℕ) : List Cx :=
  idxs.map (fun i => l.getD i 0)

/-- `NewtonPFRoutine._evaluate_function`: real parts of the mismatch at
the PV∪PQ rows followed by imaginary parts at the PQ rows. -/
def evaluateFunction (Y : List (List Cx)) (v s : List Cx)
    (pvpq pq : List ℕ) : List ℚ :=
  (idxSelect (mismatch Y v s) pvpq).map Cx.re ++
    (idxSelect (mismatch Y v s) pq).map Cx.im

/-- `NewtonPFRoutine._check_convergence`: `max(abs(F)) < tolerance`. -/
def checkConvergence (tolerance : ℚ) (f : List ℚ) : Bool :=
  decide (maxEntry (f.map (fun a => |a|)) < tolerance)

/-! #### Facts about `maxEntry` -/

theorem le_foldl_max (t : List ℚ) (a : ℚ) : a ≤ t.foldl max a := by
  induction t generalizing a with
  | nil => exact le_refl a
  | cons b t ih => exact le_trans (le_max_left a b) (ih (max a b))

theorem mem_le_foldl_max {t : List ℚ} {x : ℚ} (hx : x ∈ t) (a : ℚ) :
    x ≤ t.foldl max a := by
  induction t generalizing a with
  | nil => cases hx
  | cons b t ih =>
    rcases List.mem_cons.mp hx with h | h
    · subst h
      exact le_trans (le_max_right a x) (le_foldl_max t (max a x))
    · exact ih h (max a b)

theorem foldl_max_lt {t : List ℚ} {a c : ℚ} (ha : a < c)
    (ht : ∀ x ∈ t, x < c) : t.foldl max a < c := by
  induction t generalizing a with
  | nil => exact ha
  | cons b t ih =>
    exact ih (max_lt ha (ht b (List.mem_cons_self b t)))
      (fun x hx => ht x (List.mem_cons_of_mem b hx))

theorem maxEntry_lt_iff {l : List ℚ} (hne : l ≠ []) {c : ℚ} :
    maxEntry l < c ↔ ∀ x ∈ l, x < c := by
  cases l with
  | nil => cases hne rfl
  | cons a t =>
    constructor
    · intro h x hx
      rcases List.mem_cons.mp hx with hxa | hxt
      · subst hxa; exact lt_of_le_of_lt (le_foldl_max t x) h
      · exact lt_of_le_of_lt (mem_le_foldl_max hxt a) h
    · intro h
      exact foldl_max_lt (h a (List.mem_cons_self a t))
        (fun x hx => h x (List.mem_cons_of_mem a hx))

theorem mismatch_length {Y : List (List Cx)} {v s : List Cx}
    (hY : Y.length = v.length) (hs : s.length = v.length) :
    (mismatch Y v s).length = v.length := by
  simp [mismatch, matVec, hY, hs]

theorem mismatch_getD {Y : List (List Cx)} {v s : List Cx} {k : ℕ}
    (hk : k < v.length) (hY : Y.length = v.length)
    (hs : s.length = v.length) :
    (mismatch Y v s).getD k 0 =
      (v.getD k 0) * Cx.conj (cxDot (Y.getD k []) v) - s.getD k 0 := by
  have hm : k < (mismatch Y v s).length := by rw [mismatch_length hY hs]; exact hk
  have h1 : k < (List.zipWith (fun a b => a * Cx.conj b) v (matVec Y v)).length := by
    simp [matVec, hY]; omega
  have hYk : k < Y.length := by omega
  have hsk : k < s.length := by omega
  have hmv : k < (matVec Y v).length := by simp [matVec]; omega
  rw [List.getD_eq_getElem _ _ hm, List.getD_eq_getElem _ _ hk,
      List.getD_eq_getElem _ _ hsk]
  show (mismatch Y v s)[k] = _
  simp only [mismatch]
  rw [List.getElem_zipWith]
  rw [List.getElem_zipWith]
  have : (matVec Y v)[k] = cxDot (Y.getD k []) v := by
    simp only [matVec, List.getElem_map]
    rw [List.getD_eq_getElem _ _ hYk]
  rw [this]

/-- **C2.** For a voltage vector with nonzero entries, the evaluated
Newton-Raphson mismatch vector is exactly the real parts of
`V ∘ conj(Y·V) − S` at the PV∪PQ rows followed by the imaginary parts at
the PQ rows, and `_check_convergence` reports converged exactly when the
maximum absolute entry of that vector is strictly below the tolerance. -/
theorem newton_evaluate_check (Y : List (List Cx)) (v s : List Cx)
    (pvpq pq : List ℕ) (tolerance : ℚ)
    (hv0 : ∀ z ∈ v, z ≠ 0)
    (hY : Y.length = v.length) (hs : s.length = v.length)
    (hp : ∀ k ∈ pvpq, k < v.length) (hq : ∀ k ∈ pq, k < v.length)
    (hne : pvpq ≠ [] ∨ pq ≠ []) :
    evaluateFunction Y v s pvpq pq =
      pvpq.map (fun k =>
        ((v.getD k 0) * Cx.conj (cxDot (Y.getD k []) v) - s.getD k 0).re) ++
      pq.map (fun k =>
        ((v.getD k 0) * Cx.conj (cxDot (Y.getD k []) v) - s.getD k 0).im) ∧
    (checkConvergence tolerance (evaluateFunction Y v s pvpq pq) = true ↔
      maxEntry ((evaluateFunction Y v s pvpq pq).map (fun a => |a|)) <
        tolerance) ∧
    (checkConvergence tolerance (evaluateFunction Y v s pvpq pq) = true ↔
      ∀ x ∈ evaluateFunction Y v s pvpq pq, |x| < tolerance) := by
  have heval : evaluateFunction Y v s pvpq pq =
      pvpq.map (fun k =>
        ((v.getD k 0) * Cx.conj (cxDot (Y.getD k []) v) - s.getD k 0).re) ++
      pq.map (fun k =>
        ((v.getD k 0) * Cx.conj (cxDot (Y.getD k []) v) - s.getD k 0).im) := by
    rw [evaluateFunction, idxSelect, idxSelect, List.map_map, List.map_map]
    congr 1
    · apply List.map_congr_left
      intro k hk
      simp only [Function.comp_apply]
      rw [mismatch_getD (hp k hk) hY hs]
    · apply List.map_congr_left
      intro k hk
      simp only [Function.comp_apply]
      rw [mismatch_getD (hq k hk) hY hs]
  have hfne : evaluateFunction Y v s pvpq pq ≠ [] := by
    rw [heval]
    intro hnil
    rcases List.append_eq_nil.mp hnil with ⟨h1, h2⟩
    rcases hne with h | h
    · exact h (List.map_eq_nil_iff.mp h1)
    · exact h (List.map_eq_nil_iff.mp h2)
  refine ⟨heval, by rw [checkConvergence]; exact decide_eq_true_iff, ?_⟩
  rw [checkConvergence, decide_eq_true_iff]
  have hmapne : (evaluateFunction Y v s pvpq pq).map (fun a => |a|) ≠ [] := by
    simpa using hfne
  rw [maxEntry_lt_iff hmapne]
  constructor
  · intro h x hx
    exact h |x| (List.mem_map_of_mem _ hx)
  · intro h y hy
    rcases List.mem_map.mp hy with ⟨x, hx, rfl⟩
    exact h x hx

/-- Witness for `newton_evaluate_check` on a one-bus system. -/
theorem newton_evaluate_check_witness :
    evaluateFunction [[(⟨3, 1⟩ : Cx)]] [(⟨1, 0⟩ : Cx)] [(⟨0, 0⟩ : Cx)]
        [0] [0] =
      [0].map (fun k =>
        (([(⟨1, 0⟩ : Cx)].getD k 0) *
          Cx.conj (cxDot ([[(⟨3, 1⟩ : Cx)]].getD k []) [(⟨1, 0⟩ : Cx)]) -
          [(⟨0, 0⟩ : Cx)].getD k 0).re) ++
      [0].map (fun k =>
        (([(⟨1, 0⟩ : Cx)].getD k 0) *
          Cx.conj (cxDot ([[(⟨3, 1⟩ : Cx)]].getD k []) [(⟨1, 0⟩ : Cx)]) -
          [(⟨0, 0⟩ : Cx)].getD k 0).im) ∧
    (checkConvergence 4
        (evaluateFunction [[(⟨3, 1⟩ : Cx)]] [(⟨1, 0⟩ : Cx)] [(⟨0, 0⟩ : Cx)]
          [0] [0]) = true ↔
      maxEntry ((evaluateFunction [[(⟨3, 1⟩ : Cx)]] [(⟨1, 0⟩ : Cx)]
          [(⟨0, 0⟩ : Cx)] [0] [0]).map (fun a => |a|)) < 4) ∧
    (checkConvergence 4
        (evaluateFunction [[(⟨3, 1⟩ : Cx)]] [(⟨1, 0⟩ : Cx)] [(⟨0, 0⟩ : Cx)]
          [0] [0]) = true ↔
      ∀ x ∈ evaluateFunction [[(⟨3, 1⟩ : Cx)]] [(⟨1, 0⟩ : Cx)]
          [(⟨0, 0⟩ : Cx)] [0] [0], |x| < 4) :=
  newton_evaluate_check [[⟨3, 1⟩]] [⟨1, 0⟩] [⟨0, 0⟩] [0] [0] 4
    (by decide) rfl rfl (by decide) (by decide) (Or.inl (by decide))

/-! ### `routine/newton_pf.py` — `NewtonPFRoutine.solve` (lines 136-162)

After initialisation the method evaluates the mismatch once and checks
convergence once; the Newton iteration loop (lines 153-157) is commented
out in the source, so no call to `iterate()` is ever made and `iter`
stays `0`. -/

structure NewtonResult where
  converged : Bool
  iterations : ℕ
deriving DecidableEq, Repr

/-- `NewtonPFRoutine.solve` as written: initial mismatch evaluation and
convergence check, then — the `while` loop being commented out — an
immediate return with `iter = 0`, whatever the iteration budget
`iter_max` is. -/
def newtonSolve (tolerance : ℚ) (iter_max : ℕ) (Y : List (List Cx))
    (v0 s : List Cx) (pvpq pq : List ℕ) : NewtonResult :=
  let f := evaluateFunction Y v0 s pvpq pq
  let converged := checkConvergence tolerance f
  ⟨converged, 0⟩

/-- **C4.** The claim fails on the code: on a one-bus system whose
initial point is not converged (`max |f| = 1 ≥ tolerance = 1/2`) and with
an iteration budget of 10, `solve` stops unconverged after zero Newton
iterations — the iteration loop of `NewtonPFRoutine.solve` is commented
out, so the solver never iterates at all. -/
theorem newton_solve_stops_at_zero_iterations :
    newtonSolve 1 10 [[(⟨0, 0⟩ : Cx)]] [(⟨1, 0⟩ : Cx)] [(⟨1, 0⟩ : Cx)]
        [0] [0] = ⟨false, 0⟩ ∧
    (0 : ℕ) < 10 := by
  constructor
  · have hf : evaluateFunction [[(⟨0, 0⟩ : Cx)]] [(⟨1, 0⟩ : Cx)]
        [(⟨1, 0⟩ : Cx)] [0] [0] = [-1, 0] := by
      simp [evaluateFunction, idxSelect, mismatch, matVec, cxDot, Cx.conj]
    simp [newtonSolve, hf, checkConvergence, maxEntry]
  · decide

/-! ### `pdipm.py` — the main loop's convergence test

The four scaled diagnostics (lines 146-149, identically lines 251-254):
```
feascond = max([norm(h, Inf), max(g)]) / (1 + max([norm(x, Inf), norm(z, Inf)]))
gradcond = norm(Lx, Inf) / (1 + max([norm(lam, Inf), norm(mu, Inf)]))
compcond = (z.T * mu) / (1 + norm(x, Inf))
costcond = abs(f - f0) / (1 + abs(f0))
```
and the test (lines 155-156, identically 258-259):
```
if feascond < feastol and gradcond < gradtol and
                compcond < comptol and costcond < costtol: converged = True
```
The Newton update itself (lines 164-247) ends in an external sparse
linear solve (`umfpack.linsolve`), so the body of one iteration is kept
abstract as a `step` oracle producing the next iterate's quantities; the
loop structure, the `f0` bookkeeping and the convergence/failure tests
around it are embedded concretely. -/

/-- The quantities of one `pdipm` iterate that the convergence and
failure tests read.  `fail` stands for the numerical-failure condition of
lines 264-265 (`any(isnan(x)) or alphap < alpha_min or alphad < alpha_min
or gamma < EPS or gamma > 1/EPS`), which depends on floating-point NaN
and on the step-length/barrier values the update produced. -/
structure PDIPMState where
  x : List ℚ
  z : List ℚ
  lam : List ℚ
  mu : List ℚ
  h : List ℚ
  g : List ℚ
  Lx : List ℚ
  f : ℚ
  f0 : ℚ
  fail : Bool

/-- The four convergence tolerances (`feastol, gradtol, comptol, costtol`). -/
structure Tols where
  feastol : ℚ
  gradtol : ℚ
  comptol : ℚ
  costtol : ℚ

/-- `feascond = max(||h||_inf, max(g)) / (1 + max(||x||_inf, ||z||_inf))`. -/
def feascond (st : PDIPMState) : ℚ :=
  max (normInf st.h) (maxEntry st.g) /
    (1 + max (normInf st.x) (normInf st.z))

/-- `gradcond = ||Lx||_inf / (1 + max(||lam||_inf, ||mu||_inf))`. -/
def gradcond (st : PDIPMState) : ℚ :=
  normInf st.Lx / (1 + max (normInf st.lam) (normInf st.mu))

/-- `compcond = (z.T * mu) / (1 + ||x||_inf)`. -/
def compcond (st : PDIPMState) : ℚ :=
  dot st.z st.mu / (1 + normInf st.x)

/-- `costcond = |f - f0| / (1 + |f0|)`. -/
def costcond (st : PDIPMState) : ℚ :=
  |st.f - st.f0| / (1 + |st.f0|)

/-- The convergence test: all four diagnostics strictly below their
tolerances. -/
def pdipmCheck (tol : Tols) (st : PDIPMState) : Bool :=
  decide (feascond st < tol.feastol) && decide (gradcond st < tol.gradtol) &&
    decide (compcond st < tol.comptol) && decide (costcond st < tol.costtol)

/-- The convergence test as a proposition. -/
def CheckProp (tol : Tols) (st : PDIPMState) : Prop :=
  feascond st < tol.feastol ∧ gradcond st < tol.gradtol ∧
    compcond st < tol.comptol ∧ costcond st < tol.costtol

theorem pdipmCheck_iff (tol : Tols) (st : PDIPMState) :
    pdipmCheck tol st = true ↔ CheckProp tol st := by
  simp [pdipmCheck, CheckProp, and_assoc]

/-- One pass of the `while` body up to the tolerance check: the abstract
update `step` produces the next iterate, and `f0` is carried over from
the previous iterate's cost (`f0 = f` runs at line 269 only after a
non-converged check, so during the check `f0` is the previous cost). -/
def nextState (step : PDIPMState → PDIPMState) (st : PDIPMState) :
    PDIPMState :=
  { step st with f0 := st.f }

/-- The `while (not converged and i < max_it)` loop (lines 162-271),
fuelled by the remaining iteration budget: each iteration updates the
iterate, declares convergence if the check passes, breaks with
`converged = False` on numerical failure, and otherwise continues. -/
def pdipmLoop (step : PDIPMState → PDIPMState) (tol : Tols) :
    ℕ → PDIPMState → Bool
  | 0, _ => false
  | n + 1, st =>
    let st1 := nextState step st
    if pdipmCheck tol st1 then true
    else if st1.fail then false
    else pdipmLoop step tol n st1

/-- `pdipm`'s convergence flag: `f0 = f` (line 141), the check at the
initial point (lines 146-159), then the Newton iterations. -/
def pdipm (step : PDIPMState → PDIPMState) (tol : Tols) (max_it : ℕ)
    (st0 : PDIPMState) : Bool :=
  let s0 : PDIPMState := { st0 with f0 := st0.f }
  if pdipmCheck tol s0 then true
  else pdipmLoop step tol max_it s0

/-- The sequence of iterates the loop visits: the initial point (with
`f0 = f`) followed by the successive updates. -/
def traceState (step : PDIPMState → PDIPMState) (st0 : PDIPMState)
    (k : ℕ) : PDIPMState :=
  (nextState step)^[k] { st0 with f0 := st0.f }

theorem pdipmLoop_iff (step : PDIPMState → PDIPMState) (tol : Tols) :
    ∀ (n : ℕ) (st : PDIPMState),
      (pdipmLoop step tol n st = true ↔
        ∃ k, 1 ≤ k ∧ k ≤ n ∧ CheckProp tol ((nextState step)^[k] st) ∧
          ∀ j, 1 ≤ j → j < k →
            ¬CheckProp tol ((nextState step)^[j] st) ∧
              ((nextState step)^[j] st).fail = false) := by
  intro n
  induction n with
  | zero =>
    intro st
    simp only [pdipmLoop]
    constructor
    · intro h; cases h
    · rintro ⟨k, hk1, hk0, -⟩; omega
  | succ n ih =>
    intro st
    simp only [pdipmLoop]
    by_cases hc : pdipmCheck tol (nextState step st) = true
    · rw [if_pos hc]
      constructor
      · intro _
        refine ⟨1, le_refl 1, by omega, ?_, ?_⟩
        · rw [Function.iterate_one]
          exact (pdipmCheck_iff tol _).mp hc
        · intro j hj1 hj; omega
      · intro _; rfl
    · rw [if_neg hc]
      by_cases hf : (nextState step st).fail = true
      · rw [if_pos hf]
        constructor
        · intro h; cases h
        · rintro ⟨k, hk1, hkn, hck, hprev⟩
          by_cases hk : k = 1
          · subst hk
            rw [Function.iterate_one] at hck
            exact absurd ((pdipmCheck_iff tol _).mpr hck) hc
          · have := (hprev 1 (le_refl 1) (by omega)).2
            rw [Function.iterate_one] at this
            rw [hf] at this
            cases this
      · rw [if_neg hf]
        rw [ih (nextState step st)]
        constructor
        · rintro ⟨k, hk1, hkn, hck, hprev⟩
          refine ⟨k + 1, by omega, by omega, ?_, ?_⟩
          · rw [Function.iterate_succ_apply]
            exact hck
          · intro j hj1 hjk
            by_cases hj : j = 1
            · subst hj
              rw [Function.iterate_one]
              refine ⟨fun hcp => hc ((pdipmCheck_iff tol _).mpr hcp), ?_⟩
              simpa using hf
            · obtain ⟨m, rfl⟩ : ∃ m, j = m + 1 := ⟨j - 1, by omega⟩
              have := hprev m (by omega) (by omega)
              rw [Function.iterate_succ_apply]
              exact this
        · rintro ⟨k, hk1, hkn, hck, hprev⟩
          have hk2 : 2 ≤ k := by
            by_contra h2
            have hke : k = 1 := by omega
            subst hke
            rw [Function.iterate_one] at hck
            exact hc ((pdipmCheck_iff tol _).mpr hck)
          refine ⟨k - 1, by omega, by omega, ?_, ?_⟩
          · have : k = (k - 1) + 1 := by omega
            rw [this, Function.iterate_succ_apply] at hck
            exact hck
          · intro j hj1 hjk
            have := hprev (j + 1) (by omega) (by omega)
            rw [Function.iterate_succ_apply] at this
            exact this

/-- **C1.** The generic interior-point solver declares convergence
exactly when all four scaled diagnostics — feasibility, stationarity,
complementarity and cost change, each as computed by the code's formulas
— are strictly below their respective tolerances; the test is applied to
the initial point (`k = 0`) and to the iterate produced by every
iteration, the loop stopping at the first iterate that passes (within
the iteration budget and before any numerical-failure break). -/
theorem pdipm_converged_iff (step : PDIPMState → PDIPMState) (tol : Tols)
    (max_it : ℕ) (st0 : PDIPMState) :
    pdipm step tol max_it st0 = true ↔
      ∃ k, k ≤ max_it ∧ CheckProp tol (traceState step st0 k) ∧
        ∀ j, j < k →
          ¬CheckProp tol (traceState step st0 j) ∧
            (j = 0 ∨ (traceState step st0 j).fail = false) := by
  rw [pdipm]
  by_cases hc : pdipmCheck tol { st0 with f0 := st0.f } = true
  · rw [if_pos hc]
    constructor
    · intro _
      refine ⟨0, Nat.zero_le _, ?_, ?_⟩
      · exact (pdipmCheck_iff tol _).mp hc
      · intro j hj; omega
    · intro _; rfl
  · rw [if_neg hc]
    rw [pdipmLoop_iff]
    constructor
    · rintro ⟨k, hk1, hkn, hck, hprev⟩
      refine ⟨k, hkn, hck, ?_⟩
      intro j hj
      by_cases hj0 : j = 0
      · subst hj0
        refine ⟨?_, Or.inl rfl⟩
        simpa [traceState] using
          fun hcp => hc ((pdipmCheck_iff tol _).mpr hcp)
      · have := hprev j (by omega) hj
        exact ⟨this.1, Or.inr this.2⟩
    · rintro ⟨k, hkn, hck, hprev⟩
      have hk1 : 1 ≤ k := by
        rcases Nat.eq_zero_or_pos k with h0 | h0
        · subst h0
          simp only [traceState, Function.iterate_zero, id] at hck
          exact absurd ((pdipmCheck_iff tol _).mpr hck) hc
        · exact h0
      refine ⟨k, hk1, hkn, hck, ?_⟩
      intro j hj1 hjk
      rcases hprev j hjk with ⟨hncp, hor⟩
      refine ⟨hncp, ?_⟩
      rcases hor with h0 | hfl
      · omega
      · exact hfl

/-! ### `case.py` — `Case.get_admittance_matrix` (lines 162-292)

Per in-service branch (with the method's default arguments):
```
Ys  = online / (r + j*x)
Bc  = online * b
tap = (ratio if ratio != 0 else 1) * exp(j * (pi/180) * phase_shift)
Ytt = Ys + j*Bc/2
Yff = Ytt / (tap * conj(tap))
Yft = -Ys / conj(tap)
Ytf = -Ys / tap
```
and `Y = spdiag(Ysh) + Cf*diag(Yff)*Cf' + Cf*diag(Yft)*Ct' +
Ct*diag(Ytf)*Cf' + Ct*diag(Ytt)*Ct'`.  The transcendental factor
`exp(j*(pi/180)*θ)` has no rational value, so it is supplied as a
parameter `cis_deg : ℚ → Cx` (the function `θ ↦ exp(j·π/180·θ)`);
theorems constrain it only by `cis_deg 0 = 1`. -/

theorem Cx.mul_zero' (z : Cx) : z * 0 = 0 := by
  rw [Cx.ext_iff]; constructor <;> simp

theorem Cx.ofQ_zero : Cx.ofQ 0 = 0 := rfl

theorem Cx.ofQ_one : Cx.ofQ 1 = 1 := rfl

/-- `online` as the scalar `1.0`/`0.0` used by the matrix code. -/
def Branch.onlineQ (br : Branch) : ℚ := if br.online then 1 else 0

/-- `Ys = online / (r + j*x)` (series admittance). -/
def Branch.Ys (br : Branch) : Cx :=
  Cx.div (Cx.ofQ br.onlineQ) ⟨br.r, br.x⟩

/-- `Bc = online * b` (line charging susceptance). -/
def Branch.Bc (br : Branch) : ℚ := br.onlineQ * br.b

/-- The real tap magnitude: default `1.0`, overridden by `ratio` for
branches with `ratio != 0`. -/
def Branch.tapMag (br : Branch) : ℚ := if br.ratio ≠ 0 then br.ratio else 1

/-- The complex tap factor `tap * exp(j*(pi/180)*phase_shift)`. -/
def Branch.tap (br : Branch) (cis_deg : ℚ → Cx) : Cx :=
  Cx.ofQ br.tapMag * cis_deg br.phase_shift

/-- `Ytt = Ys + j*Bc/2`. -/
def Branch.Ytt (br : Branch) : Cx := br.Ys + Cx.jay * Cx.ofQ (br.Bc / 2)

/-- `Yff = Ytt / (tap * conj(tap))`. -/
def Branch.Yff (br : Branch) (cis_deg : ℚ → Cx) : Cx :=
  Cx.div br.Ytt (br.tap cis_deg * Cx.conj (br.tap cis_deg))

/-- `Yft = -Ys / conj(tap)`. -/
def Branch.Yft (br : Branch) (cis_deg : ℚ → Cx) : Cx :=
  Cx.div (-br.Ys) (Cx.conj (br.tap cis_deg))

/-- `Ytf = -Ys / tap`. -/
def Branch.Ytf (br : Branch) (cis_deg : ℚ → Cx) : Cx :=
  Cx.div (-br.Ys) (br.tap cis_deg)

/-- One branch's contribution to the bus-admittance entry `(i, k)`: the
dense semantics of `Cf*diag(Yff)*Cf' + Cf*diag(Yft)*Ct' +
Ct*diag(Ytf)*Cf' + Ct*diag(Ytt)*Ct'`. -/
def branchContrib (cis_deg : ℚ → Cx) (i k : ℕ) (br : Branch) : Cx :=
  (if i = br.from_bus ∧ k = br.from_bus then br.Yff cis_deg else 0) +
  (if i = br.from_bus ∧ k = br.to_bus then br.Yft cis_deg else 0) +
  (if i = br.to_bus ∧ k = br.from_bus then br.Ytf cis_deg else 0) +
  (if i = br.to_bus ∧ k = br.to_bus then br.Ytt else 0)

/-- The bus admittance matrix entry `(i, k)` before the `spdiag(Ysh)`
per-bus shunt addition: the sum of the branch contributions. -/
def Ybranch (c : Case) (cis_deg : ℚ → Cx) (i k : ℕ) : Cx :=
  (c.branches.map (branchContrib cis_deg i k)).sum

/-- The per-bus shunt admittance `Ysh = (g_shunt + j*b_shunt)/base_mva`. -/
def Case.Ysh (c : Case) (i : ℕ) : Cx :=
  let bus := c.buses.getD i {}
  ⟨bus.g_shunt / c.base_mva, bus.b_shunt / c.base_mva⟩

/-- The full bus admittance matrix entry `Y[i, k]`. -/
def Ybus (c : Case) (cis_deg : ℚ → Cx) (i k : ℕ) : Cx :=
  (if i = k then c.Ysh i else 0) + Ybranch c cis_deg i k

/-- Row sum of the admittance matrix before the per-bus shunt addition. -/
def rowSumPreShunt (c : Case) (cis_deg : ℚ → Cx) (i : ℕ) : Cx :=
  ((List.range c.buses.length).map (fun k => Ybranch c cis_deg i k)).sum

/-- A two-bus, one-branch case with `ratio = 1`, `phase_shift = 0` and a
nonzero line-charging susceptance `b = 1`. -/
def chargedLineCase : Case :=
  { buses := [{ type := "ref" }, {}],
    branches := [{ from_bus := 0, to_bus := 1, r := 0, x := 1, b := 1 }] }

/-- **C9 counterexample.** The claim is false as stated: in a case whose
only branch has tap ratio 1 and phase shift 0 but nonzero line-charging
susceptance `b = 1`, row 0 of the admittance matrix before the per-bus
shunt addition sums to `j/2 ≠ 0` (the `j*Bc/2` mid-line charging terms on
the diagonal blocks are not cancelled). -/
theorem admittance_row_sum_nonzero :
    (∀ br ∈ chargedLineCase.branches, br.ratio = 1 ∧ br.phase_shift = 0) ∧
    rowSumPreShunt chargedLineCase (fun _ => 1) 0 = ⟨0, 1/2⟩ ∧
    (⟨0, 1/2⟩ : Cx) ≠ 0 := by
  refine ⟨by decide, ?_, ?_⟩
  · rw [Cx.ext_iff]
    constructor <;>
      · simp [rowSumPreShunt, Ybranch, chargedLineCase, branchContrib,
          Branch.Yff, Branch.Yft, Branch.Ytf, Branch.Ytt, Branch.Ys,
          Branch.tap, Branch.tapMag, Branch.onlineQ, Branch.Bc, Cx.div,
          Cx.inv, Cx.normSq, Cx.ofQ, Cx.jay, Cx.conj, List.range_succ]
  · rw [Ne, Cx.ext_iff]
    norm_num

theorem sum_map_zero_cx {α : Type} (m : List α) :
    (m.map (fun _ => (0 : Cx))).sum = 0 := by
  induction m with
  | nil => rfl
  | cons a t ih => simp [ih]

theorem sum_map_add_cx {α : Type} (m : List α) (g h : α → Cx) :
    (m.map (fun k => g k + h k)).sum = (m.map g).sum + (m.map h).sum := by
  induction m with
  | nil => simp
  | cons a t ih => simp [ih]; abel

theorem sum_map_range_swap (l : List Branch) (n : ℕ) (f : ℕ → Branch → Cx) :
    ((List.range n).map (fun k => (l.map (f k)).sum)).sum =
      (l.map (fun br => ((List.range n).map (fun k => f k br)).sum)).sum := by
  induction l with
  | nil => simpa using sum_map_zero_cx (List.range n)
  | cons a t ih =>
    simp only [List.map_cons, List.sum_cons]
    rw [← ih, ← sum_map_add_cx]

theorem sum_range_single (n c : ℕ) (hc : c < n) (A : Cx) :
    ((List.range n).map (fun k => if k = c then A else 0)).sum = A := by
  induction n with
  | zero => omega
  | succ n ih =>
    rw [List.range_succ, List.map_append, List.sum_append]
    by_cases hcn : c = n
    · subst hcn
      have hz : ((List.range c).map (fun k => if k = c then A else 0)).sum
          = 0 := by
        apply List.sum_eq_zero
        intro x hx
        rcases List.mem_map.mp hx with ⟨k, hk, rfl⟩
        have : k < c := List.mem_range.mp hk
        simp [Nat.ne_of_lt this]
      simp [hz]
    · have hlt : c < n := by omega
      rw [ih hlt]
      simp [show n ≠ c from fun h => hcn h.symm]

theorem sum_range_ite_and (n c : ℕ) (hc : c < n) (P : Prop) [Decidable P]
    (A : Cx) :
    ((List.range n).map (fun k => if P ∧ k = c then A else 0)).sum =
      if P then A else 0 := by
  by_cases hP : P
  · simp only [hP, true_and, if_true]
    exact sum_range_single n c hc A
  · simp only [hP, false_and, if_false]
    exact sum_map_zero_cx (List.range n)

theorem branch_row_contrib (cis_deg : ℚ → Cx) (hcis : cis_deg 0 = 1)
    (br : Branch) (n : ℕ)
    (hratio : br.ratio = 1) (hshift : br.phase_shift = 0) (hb : br.b = 0)
    (hf : br.from_bus < n) (ht : br.to_bus < n) (i : ℕ) :
    ((List.range n).map (fun k => branchContrib cis_deg i k br)).sum = 0 := by
  have htap : br.tap cis_deg = 1 := by
    rw [Branch.tap, hshift, hcis, Branch.tapMag, hratio]
    norm_num [Cx.ofQ_one, Cx.mul_one']
  have hYtt : br.Ytt = br.Ys := by
    rw [Branch.Ytt, Branch.Bc, hb, mul_zero]
    norm_num [Cx.ofQ_zero, Cx.mul_zero']
  have hYff : br.Yff cis_deg = br.Ys := by
    rw [Branch.Yff, htap, Cx.conj_one, Cx.mul_one', Cx.div_one', hYtt]
  have hYft : br.Yft cis_deg = -br.Ys := by
    rw [Branch.Yft, htap, Cx.conj_one, Cx.div_one']
  have hYtf : br.Ytf cis_deg = -br.Ys := by
    rw [Branch.Ytf, htap, Cx.div_one']
  simp only [branchContrib, hYff, hYft, hYtf, hYtt]
  rw [sum_map_add_cx (List.range n)
        (fun k => (if i = br.from_bus ∧ k = br.from_bus then br.Ys else 0) +
          (if i = br.from_bus ∧ k = br.to_bus then -br.Ys else 0) +
          (if i = br.to_bus ∧ k = br.from_bus then -br.Ys else 0))
        (fun k => if i = br.to_bus ∧ k = br.to_bus then br.Ys else 0),
      sum_map_add_cx (List.range n)
        (fun k => (if i = br.from_bus ∧ k = br.from_bus then br.Ys else 0) +
          (if i = br.from_bus ∧ k = br.to_bus then -br.Ys else 0))
        (fun k => if i = br.to_bus ∧ k = br.from_bus then -br.Ys else 0),
      sum_map_add_cx (List.range n)
        (fun k => if i = br.from_bus ∧ k = br.from_bus then br.Ys else 0)
        (fun k => if i = br.from_bus ∧ k = br.to_bus then -br.Ys else 0),
      sum_range_ite_and n br.from_bus hf _ _,
      sum_range_ite_and n br.to_bus ht _ _,
      sum_range_ite_and n br.from_bus hf _ _,
      sum_range_ite_and n br.to_bus ht _ _]
  by_cases h1 : i = br.from_bus <;> by_cases h2 : i = br.to_bus
  · rw [if_pos h1, if_pos h1, if_pos h2, if_pos h2]; abel
  · rw [if_pos h1, if_pos h1, if_neg h2, if_neg h2]; abel
  · rw [if_neg h1, if_neg h1, if_pos h2, if_pos h2]; abel
  · rw [if_neg h1, if_neg h1, if_neg h2, if_neg h2]; abel

/-- **C9 (amended).** For every Case in which all branches have tap ratio
exactly 1, phase shift 0 **and zero line-charging susceptance** (and
in-range endpoints), every row of the bus admittance matrix before the
per-bus shunt addition sums to zero — exactly, in the rational model.
(The original claim, without the `b = 0` condition, is refuted by
`admittance_row_sum_nonzero`.) -/
theorem admittance_row_sums_zero (c : Case) (cis_deg : ℚ → Cx)
    (hcis : cis_deg 0 = 1)
    (hbranch : ∀ br ∈ c.branches,
      br.ratio = 1 ∧ br.phase_shift = 0 ∧ br.b = 0)
    (hidx : ∀ br ∈ c.branches,
      br.from_bus < c.buses.length ∧ br.to_bus < c.buses.length) :
    ∀ i, rowSumPreShunt c cis_deg i = 0 := by
  intro i
  rw [rowSumPreShunt]
  simp only [Ybranch]
  rw [sum_map_range_swap c.branches c.buses.length
        (fun k br => branchContrib cis_deg i k br)]
  apply List.sum_eq_zero
  intro x hx
  rcases List.mem_map.mp hx with ⟨br, hbr, rfl⟩
  rcases hbranch br hbr with ⟨h1, h2, h3⟩
  rcases hidx br hbr with ⟨h4, h5⟩
  exact branch_row_contrib cis_deg hcis br c.buses.length h1 h2 h3 h4 h5 i

/-- Witness for `admittance_row_sums_zero`: the two-bus case with one
uncharged symmetric line. -/
theorem admittance_row_sums_zero_witness :
    rowSumPreShunt
      { buses := [{ type := "ref" }, {}],
        branches := [{ from_bus := 0, to_bus := 1, r := 0, x := 1,
                       b := 0 }] }
      (fun _ => 1) 0 = 0 :=
  admittance_row_sums_zero _ (fun _ => 1) rfl
    (by decide) (by decide) 0

/-! ### `opf.py` — `OPF._construct_opf_model` / `OPF._ref_check`

`_construct_opf_model` (lines 105-121) begins:
```
self.case.reset()            # Zero the case result attributes.
...
oneref, refs = self._ref_check(case)
if not oneref: return {"status": "error"}
```
so the result attributes of every bus, branch and generator are zeroed
*before* the reference-bus configuration check; on failure the error
result is returned and no OPF model is built (hence nothing is ever
iterated for this case). -/

/-- `Bus.reset` (case.py lines 687-695). -/
def Bus.reset (bus : Bus) : Bus :=
  { bus with v_magnitude := 0, v_angle := 0, p_lambda := 0, q_lambda := 0,
             mu_vmin := 0, mu_vmax := 0 }

/-- `Branch.reset` (case.py lines 782-791). -/
def Branch.reset (br : Branch) : Branch :=
  { br with p_from := 0, p_to := 0, q_from := 0, q_to := 0,
            mu_s_from := 0, mu_s_to := 0 }

/-- `Generator.reset` (case.py lines 948-952). -/
def Generator.reset (g : Generator) : Generator :=
  { g with mu_pmin := 0, mu_pmax := 0 }

/-- `Case.reset` (case.py lines 539-547). -/
def Case.reset (c : Case) : Case :=
  { c with buses := c.buses.map Bus.reset,
           branches := c.branches.map Branch.reset,
           generators := c.generators.map Generator.reset }

/-- `OPF._ref_check` (opf.py lines 181-190): the indices of the
reference-type buses, and whether there is exactly one. -/
def refCheck (c : Case) : Bool × List ℕ :=
  let refs := (c.buses.filter (fun bus => bus.type = "ref")).map Bus.i
  (refs.length = 1, refs)

/-- The outcome of `OPF._construct_opf_model`: the `{"status": "error"}`
dictionary, or an OPF model to hand to a solver (its contents are beyond
this claim). -/
inductive ConstructOutcome where
  | error : ConstructOutcome
  | model : ConstructOutcome
deriving DecidableEq, Repr

/-- The head of `OPF._construct_opf_model` (opf.py lines 105-121): reset
the case's result attributes, then check for exactly one reference bus,
returning the error result on failure.  The returned `Case` is the
mutated state of `self.case`. -/
def constructOPFModel (c : Case) : ConstructOutcome × Case :=
  let c1 := c.reset
  let (oneref, _refs) := refCheck c1
  if oneref then (.model, c1) else (.error, c1)

/-- A one-bus case with no reference bus and a nonzero solved nodal
price `p_lambda = 5`. -/
def noRefCase : Case :=
  { buses := [{ type := "PQ", p_lambda := 5 }], branches := [] }

/-- **C8 counterexample.** The claim's "no bus, branch or generator field
is modified" part is false: on a Case with zero reference buses whose bus
carries the solved value `p_lambda = 5`, `_construct_opf_model` reports
the error result, but `case.reset()` has already zeroed `p_lambda` —
the reset runs before the reference check. -/
theorem opf_construct_mutates_before_check :
    (constructOPFModel noRefCase).1 = .error ∧
    ((constructOPFModel noRefCase).2.buses.map Bus.p_lambda) = [0] ∧
    (noRefCase.buses.map Bus.p_lambda) = [5] ∧ (0 : ℚ) ≠ 5 := by
  refine ⟨rfl, rfl, rfl, by norm_num⟩

/-- **C8 (amended).** If the Case has zero or more than one reference
bus, `_construct_opf_model` reports the error result and no OPF model is
built (so no iteration is ever run for the case); the configuration
error is, however, caught only after `case.reset()` has zeroed the
result attributes, so the Case leaves the call in its reset state rather
than untouched. -/
theorem opf_construct_error_aborts (c : Case)
    (href : ((c.buses.filter (fun bus => bus.type = "ref")).map
        Bus.i).length ≠ 1) :
    (constructOPFModel c).1 = .error ∧ (constructOPFModel c).2 = c.reset := by
  have hfilter : ((c.reset.buses.filter (fun bus => bus.type = "ref")).map
      Bus.i).length ≠ 1 := by
    intro hlen
    apply href
    have hcomm : ∀ (bs : List Bus),
        (bs.map Bus.reset).filter (fun bus => bus.type = "ref") =
          (bs.filter (fun bus => bus.type = "ref")).map Bus.reset := by
      intro bs
      induction bs with
      | nil => rfl
      | cons a t ih =>
        by_cases ha : a.type = "ref" <;>
          simp [Bus.reset, List.filter_cons, ha, ih]
    rw [show c.reset.buses = c.buses.map Bus.reset from rfl, hcomm,
        List.length_map, List.length_map] at hlen
    rw [List.length_map]
    exact hlen
  rw [constructOPFModel]
  simp only [refCheck]
  rw [if_neg (by simpa using hfilter)]
  exact ⟨rfl, rfl⟩

/-- Witness for `opf_construct_error_aborts` at `noRefCase`. -/
theorem opf_construct_error_aborts_witness :
    (constructOPFModel noRefCase).1 = .error ∧
    (constructOPFModel noRefCase).2 = noRefCase.reset :=
  opf_construct_error_aborts noRefCase (by decide)

/-! ### `opf.py` — `OPFModel.linear_constraints` (lines 1136-1163)

```
A = csr_matrix((self.lin_N, self.var_N)); l = -Inf*ones; u = -l
for lin in self.lin_constraints:
    if lin.N:
        Ak = lin.A; i1 = lin.i1; iN = lin.iN; vsl = lin.vs; kN = -1
        Ai = csr_matrix((lin.N, self.var_N))
        for v in vsl:
            var = self.get_var(v)
            j1 = var.i1; jN = var.iN; k1 = kN + 1; kN = kN + var.N
            Ai[:, j1:jN + 1] = Ak[:, k1:kN + 1]
        A[i1:iN + 1, :] = Ai
        l[i1:iN + 1] = lin.l
        u[i1:iN + 1] = lin.u
```
Matrices are modelled as total functions; a Python slice `[i1:iN+1]`
(with `iN = i1 + N - 1` as assigned by the builder over machine ints) is
the index set `i1 ≤ · < i1 + N`.  The `self.get_var(v)` call raises for
an unknown name, hence the `Option` result. -/

/-- One pass of the inner `for v in vsl` loop: look the declared block's
name up, copy the corresponding column range of `Ak` into the block's
global column range, and advance the within-block column cursor `kN`. -/
def fillStep (m : OPFModel) (Ak : ℕ → ℕ → ℚ) (acc : (ℕ → ℕ → ℚ) × ℕ)
    (vname : String) : Option ((ℕ → ℕ → ℚ) × ℕ) := do
  let var ← m.get_var vname
  pure (fun r c =>
          if var.i1 ≤ c ∧ c < var.i1 + var.N
          then Ak r (acc.2 + (c - var.i1)) else acc.1 r c,
        acc.2 + var.N)

/-- The inner `for v in vsl` loop: copy each declared variable block's
column range of `Ak` into the corresponding global column range,
accumulating the within-block column cursor `kN`. -/
def fillVarCols (m : OPFModel) (Ak : ℕ → ℕ → ℚ) (vsl : List String) :
    Option ((ℕ → ℕ → ℚ) × ℕ) :=
  vsl.foldlM (fillStep m Ak) (fun _ _ => (0 : ℚ), 0)

/-- One pass of the outer loop for a single linear constraint block:
skip empty blocks, otherwise fill the block's rows of `A`, `l`, `u`. -/
def applyLin (m : OPFModel) (acc : (ℕ → ℕ → ℚ) × (ℕ → XR) × (ℕ → XR))
    (lin : LinearConstraint) :
    Option ((ℕ → ℕ → ℚ) × (ℕ → XR) × (ℕ → XR)) :=
  if lin.N = 0 then some acc
  else do
    let fill ← fillVarCols m lin.A lin.vs
    pure (fun r c => if lin.i1 ≤ r ∧ r < lin.i1 + lin.N
            then fill.1 (r - lin.i1) c else acc.1 r c,
          fun r => if lin.i1 ≤ r ∧ r < lin.i1 + lin.N
            then lin.l (r - lin.i1) else acc.2.1 r,
          fun r => if lin.i1 ≤ r ∧ r < lin.i1 + lin.N
            then lin.u (r - lin.i1) else acc.2.2 r)

/-- `OPFModel.linear_constraints`: the assembled `(A, l, u)`. -/
def OPFModel.linear_constraints (m : OPFModel) :
    Option ((ℕ → ℕ → ℚ) × (ℕ → XR) × (ℕ → XR)) :=
  m.lin_constraints.foldlM (applyLin m)
    (fun _ _ => (0 : ℚ), fun _ => XR.ninf, fun _ => XR.pinf)

/-- The offsets `add_var` hands out when the blocks `vlist` are added in
order starting from running total `base`. -/
def assignVars (base : ℕ) : List Variable → List Variable
  | [] => []
  | v :: rest =>
    { v with i1 := base, iN := base + v.N - 1 } :: assignVars (base + v.N) rest

/-- The offsets `add_constraint` hands out for linear blocks. -/
def assignCons (base : ℕ) : List LinearConstraint → List LinearConstraint
  | [] => []
  | c :: rest =>
    { c with i1 := base, iN := base + c.N - 1 } :: assignCons (base + c.N) rest

/-- A model built from scratch: `opf = OPFModel(case); opf.add_vars(vars);
opf.add_constraints(constraints)` with only linear constraints. -/
def buildModel (vlist : List Variable) (clist : List LinearConstraint) :
    OPFModel :=
  (OPFModel.empty.add_vars vlist).add_constraints (clist.map Constraint.lin)

/-- Global column offset of the `p`-th variable block. -/
def varOffset (vlist : List Variable) (p : ℕ) : ℕ :=
  ((vlist.take p).map Variable.N).sum

/-- Global row offset of the `q`-th linear constraint block. -/
def conOffset (clist : List LinearConstraint) (q : ℕ) : ℕ :=
  ((clist.take q).map LinearConstraint.N).sum

/-- The row/column count of the variable block named `nm`. -/
def varN (vlist : List Variable) (nm : String) : ℕ :=
  ((vlist.find? (fun v => v.name = nm)).map Variable.N).getD 0

/-- The column offset of the block named `nm` within a constraint's own
matrix `Ak`: the widths of the blocks declared before it in `vs`. -/
def vsOffset (vlist : List Variable) (vs : List String) (nm : String) : ℕ :=
  ((vs.takeWhile (fun s => s ≠ nm)).map (varN vlist)).sum

theorem add_vars_eq (vlist : List Variable) :
    ∀ (m0 : OPFModel),
      (m0.vars.map Variable.name ++ vlist.map Variable.name).Nodup →
      (m0.add_vars vlist).vars = m0.vars ++ assignVars m0.var_N vlist := by
  induction vlist with
  | nil => intro m0 _; simp [OPFModel.add_vars, assignVars]
  | cons v rest ih =>
    intro m0 hnd
    have hvnotin : v.name ∉ m0.vars.map Variable.name := by
      intro hmem
      rcases List.nodup_append.mp hnd with ⟨-, -, hdisj⟩
      exact hdisj hmem (by simp)
    have hstep : m0.add_var v =
        { m0 with vars := m0.vars ++
            [{ v with i1 := m0.var_N, iN := m0.var_N + v.N - 1 }] } := by
      rw [OPFModel.add_var, if_neg hvnotin]
    show ((m0.add_var v).add_vars rest).vars = _
    rw [hstep]
    set v' : Variable :=
      { v with i1 := m0.var_N, iN := m0.var_N + v.N - 1 } with hv'
    have hnames : ({ m0 with vars := m0.vars ++ [v'] } : OPFModel).vars.map
        Variable.name ++ rest.map Variable.name =
        m0.vars.map Variable.name ++ (v.name :: rest.map Variable.name) := by
      simp [hv']
    have hnd' : (({ m0 with vars := m0.vars ++ [v'] } : OPFModel).vars.map
        Variable.name ++ rest.map Variable.name).Nodup := by
      rw [hnames]
      simpa using hnd
    rw [ih _ hnd']
    have hvarN : ({ m0 with vars := m0.vars ++ [v'] } : OPFModel).var_N =
        m0.var_N + v.N := by
      simp [OPFModel.var_N, hv']
    rw [hvarN]
    simp [assignVars, hv']

theorem add_constraints_eq (clist : List LinearConstraint) :
    ∀ (m0 : OPFModel),
      (m0.lin_constraints.map LinearConstraint.name ++
        clist.map LinearConstraint.name).Nodup →
      (m0.add_constraints (clist.map Constraint.lin)).lin_constraints =
          m0.lin_constraints ++ assignCons m0.lin_N clist ∧
        (m0.add_constraints (clist.map Constraint.lin)).vars = m0.vars := by
  induction clist with
  | nil => intro m0 _; simp [OPFModel.add_constraints, assignCons]
  | cons cb rest ih =>
    intro m0 hnd
    have hcnotin : cb.name ∉ m0.lin_constraints.map LinearConstraint.name := by
      intro hmem
      rcases List.nodup_append.mp hnd with ⟨-, -, hdisj⟩
      exact hdisj hmem (by simp)
    have hstep : (m0.add_constraint (Constraint.lin cb)).1 =
        { m0 with lin_constraints := m0.lin_constraints ++
            [{ cb with i1 := m0.lin_N, iN := m0.lin_N + cb.N - 1 }] } := by
      rw [OPFModel.add_constraint]
      simp only [if_neg hcnotin]
    have hunfold : m0.add_constraints ((cb :: rest).map Constraint.lin) =
        (m0.add_constraint (Constraint.lin cb)).1.add_constraints
          (rest.map Constraint.lin) := rfl
    rw [hunfold, hstep]
    set cb' : LinearConstraint :=
      { cb with i1 := m0.lin_N, iN := m0.lin_N + cb.N - 1 } with hcb'
    have hnd' : (({ m0 with lin_constraints := m0.lin_constraints ++ [cb'] } :
        OPFModel).lin_constraints.map LinearConstraint.name ++
        rest.map LinearConstraint.name).Nodup := by
      have : ({ m0 with lin_constraints := m0.lin_constraints ++ [cb'] } :
          OPFModel).lin_constraints.map LinearConstraint.name ++
          rest.map LinearConstraint.name =
          m0.lin_constraints.map LinearConstraint.name ++
            (cb.name :: rest.map LinearConstraint.name) := by
        simp [hcb']
      rw [this]
      simpa using hnd
    rcases ih _ hnd' with ⟨h1, h2⟩
    have hlinN : ({ m0 with lin_constraints := m0.lin_constraints ++ [cb'] } :
        OPFModel).lin_N = m0.lin_N + cb.N := by
      simp [OPFModel.lin_N, hcb']
    constructor
    · rw [h1, hlinN]
      simp [assignCons, hcb']
    · rw [h2]

theorem take_sum_succ : ∀ (l : List ℕ) (p : ℕ) (hp : p < l.length),
    (l.take (p + 1)).sum = (l.take p).sum + l[p] := by
  intro l
  induction l with
  | nil => intro p hp; cases hp
  | cons a t ih =>
    intro p hp
    cases p with
    | zero => simp
    | succ q =>
      have hq : q < t.length := by simpa using hp
      simp only [List.take_succ_cons, List.sum_cons, List.getElem_cons_succ]
      rw [ih q hq]
      omega

theorem take_sum_mono : ∀ (l : List ℕ) (p q : ℕ), p ≤ q →
    (l.take p).sum ≤ (l.take q).sum := by
  intro l
  induction l with
  | nil => intro p q _; simp
  | cons a t ih =>
    intro p q hpq
    cases p with
    | zero => simp
    | succ p' =>
      cases q with
      | zero => omega
      | succ q' =>
        simp only [List.take_succ_cons, List.sum_cons]
        exact Nat.add_le_add_left (ih p' q' (by omega)) a

theorem varOffset_eq_take (vlist : List Variable) (p : ℕ) :
    varOffset vlist p = ((vlist.map Variable.N).take p).sum := by
  rw [varOffset, List.map_take]

theorem varOffset_succ (vlist : List Variable) (p : ℕ)
    (hp : p < vlist.length) :
    varOffset vlist (p + 1) = varOffset vlist p + vlist[p].N := by
  rw [varOffset_eq_take, varOffset_eq_take,
      take_sum_succ (vlist.map Variable.N) p (by simpa using hp)]
  congr 1
  exact List.getElem_map _

theorem varOffset_mono (vlist : List Variable) {p q : ℕ} (h : p ≤ q) :
    varOffset vlist p ≤ varOffset vlist q := by
  rw [varOffset_eq_take, varOffset_eq_take]
  exact take_sum_mono _ p q h

/-- Distinct variable blocks occupy disjoint global column ranges: the
column `varOffset p + c` (with `c` inside block `p`) lies in block `q`'s
range exactly when `q = p`. -/
theorem varOffset_range_iff (vlist : List Variable) {p q : ℕ}
    (hp : p < vlist.length) (hq : q < vlist.length) {c : ℕ}
    (hc : c < vlist[p].N) :
    (varOffset vlist q ≤ varOffset vlist p + c ∧
      varOffset vlist p + c < varOffset vlist q + vlist[q].N) ↔ p = q := by
  constructor
  · intro ⟨h1, h2⟩
    by_contra hne
    rcases Nat.lt_or_ge p q with hlt | hge
    · have : varOffset vlist p + vlist[p].N ≤ varOffset vlist q := by
        rw [← varOffset_succ vlist p hp]
        exact varOffset_mono vlist hlt
      omega
    · have hqp : q < p := by omega
      have : varOffset vlist q + vlist[q].N ≤ varOffset vlist p := by
        rw [← varOffset_succ vlist q hq]
        exact varOffset_mono vlist hqp
      omega
  · rintro rfl
    omega

theorem find_assignVars : ∀ (vlist : List Variable) (base p : ℕ)
    (hp : p < vlist.length),
    (vlist.map Variable.name).Nodup →
    (assignVars base vlist).find? (fun v => v.name = vlist[p].name) =
      some { vlist[p] with
             i1 := base + varOffset vlist p,
             iN := base + varOffset vlist p + vlist[p].N - 1 } := by
  intro vlist
  induction vlist with
  | nil => intro base p hp; cases hp
  | cons v rest ih =>
    intro base p hp hnd
    rw [List.map_cons] at hnd
    rcases List.nodup_cons.mp hnd with ⟨hvnotin, hndrest⟩
    cases p with
    | zero =>
      simp only [List.getElem_cons_zero, assignVars]
      rw [List.find?_cons_of_pos _ (by simp)]
      simp [varOffset]
    | succ q =>
      have hq : q < rest.length := by simpa using hp
      have hname : rest[q].name ∈ rest.map Variable.name :=
        List.mem_map_of_mem _ (List.getElem_mem hq)
      have hneq : ¬v.name = rest[q].name := by
        intro he; exact hvnotin (he ▸ hname)
      simp only [List.getElem_cons_succ, assignVars]
      rw [List.find?_cons_of_neg _ (by simpa using hneq)]
      rw [ih (base + v.N) q hq hndrest]
      have hoff : varOffset (v :: rest) (q + 1) = v.N + varOffset rest q := by
        simp [varOffset, List.take_succ_cons]
      rw [hoff]
      have h1 : base + v.N + varOffset rest q =
          base + (v.N + varOffset rest q) := by omega
      rw [h1]

theorem find_name_nodup : ∀ (vlist : List Variable) (p : ℕ)
    (hp : p < vlist.length),
    (vlist.map Variable.name).Nodup →
    vlist.find? (fun v => v.name = vlist[p].name) = some vlist[p] := by
  intro vlist
  induction vlist with
  | nil => intro p hp; cases hp
  | cons v rest ih =>
    intro p hp hnd
    rw [List.map_cons] at hnd
    rcases List.nodup_cons.mp hnd with ⟨hvnotin, hndrest⟩
    cases p with
    | zero =>
      simp only [List.getElem_cons_zero]
      rw [List.find?_cons_of_pos _ (by simp)]
    | succ q =>
      have hq : q < rest.length := by simpa using hp
      have hname : rest[q].name ∈ rest.map Variable.name :=
        List.mem_map_of_mem _ (List.getElem_mem hq)
      have hneq : ¬v.name = rest[q].name := fun he => hvnotin (he ▸ hname)
      simp only [List.getElem_cons_succ]
      rw [List.find?_cons_of_neg _ (by simpa using hneq)]
      exact ih q hq hndrest

theorem add_vars_lin_constraints (vlist : List Variable) :
    ∀ (m0 : OPFModel),
      (m0.add_vars vlist).lin_constraints = m0.lin_constraints := by
  induction vlist with
  | nil => intro m0; rfl
  | cons v rest ih =>
    intro m0
    show ((m0.add_var v).add_vars rest).lin_constraints = _
    rw [ih]
    rw [OPFModel.add_var]
    by_cases hmem : v.name ∈ m0.vars.map Variable.name
    · rw [if_pos hmem]
    · rw [if_neg hmem]

/-- On a model built by `buildModel`, `get_var` resolves each block name
to the block with its assigned global column range. -/
theorem get_var_buildModel (vlist : List Variable)
    (clist : List LinearConstraint)
    (hvnd : (vlist.map Variable.name).Nodup)
    (hcnd : (clist.map LinearConstraint.name).Nodup)
    (p : ℕ) (hp : p < vlist.length) :
    (buildModel vlist clist).get_var (vlist[p].name) =
      some { vlist[p] with
             i1 := varOffset vlist p,
             iN := varOffset vlist p + vlist[p].N - 1 } := by
  have hvars0 : (OPFModel.empty.add_vars vlist).vars = assignVars 0 vlist := by
    have h := add_vars_eq vlist OPFModel.empty
      (by simpa [OPFModel.empty] using hvnd)
    simpa [OPFModel.empty, OPFModel.var_N] using h
  have hlin0 : (OPFModel.empty.add_vars vlist).lin_constraints = [] :=
    add_vars_lin_constraints vlist OPFModel.empty
  have hadd := add_constraints_eq clist (OPFModel.empty.add_vars vlist)
    (by rw [hlin0]; simpa using hcnd)
  have hvars : (buildModel vlist clist).vars = assignVars 0 vlist := by
    rw [buildModel, hadd.2, hvars0]
  rw [OPFModel.get_var, hvars]
  simpa using find_assignVars vlist 0 p hp hvnd

/-- The linear-constraint list of a built model carries the assigned
consecutive row ranges. -/
theorem lin_constraints_buildModel (vlist : List Variable)
    (clist : List LinearConstraint)
    (hcnd : (clist.map LinearConstraint.name).Nodup) :
    (buildModel vlist clist).lin_constraints = assignCons 0 clist := by
  have hlin0 : (OPFModel.empty.add_vars vlist).lin_constraints = [] :=
    add_vars_lin_constraints vlist OPFModel.empty
  have hadd := add_constraints_eq clist (OPFModel.empty.add_vars vlist)
    (by rw [hlin0]; simpa using hcnd)
  rw [buildModel, hadd.1, hlin0]
  simp [OPFModel.lin_N, hlin0]

theorem vsOffset_head (vlist : List Variable) (nm : String)
    (rest : List String) :
    vsOffset vlist (nm :: rest) nm = 0 := by
  simp [vsOffset, List.takeWhile_cons]

theorem vsOffset_tail (vlist : List Variable) (nm other : String)
    (rest : List String) (h : other ≠ nm) :
    vsOffset vlist (nm :: rest) other =
      varN vlist nm + vsOffset vlist rest other := by
  simp [vsOffset, List.takeWhile_cons, Ne.symm h]

/-- Characterisation of the inner column-filling loop on a built model:
at a column inside variable block `p`, the result holds the block's
`Ak`-columns if block `p` was declared (offset by the widths of the
blocks declared before it), and the incoming accumulator value
otherwise. -/
theorem fillFold_spec (vlist : List Variable) (clist : List LinearConstraint)
    (hvnd : (vlist.map Variable.name).Nodup)
    (hcnd : (clist.map LinearConstraint.name).Nodup)
    (Ak : ℕ → ℕ → ℚ) :
    ∀ (vs : List String)
      (hvs : ∀ nm ∈ vs, ∃ p, ∃ hp : p < vlist.length, vlist[p].name = nm)
      (hvsnd : vs.Nodup) (accF : ℕ → ℕ → ℚ) (k : ℕ),
    ∃ Ai kend,
      vs.foldlM (fillStep (buildModel vlist clist) Ak) (accF, k) =
        some (Ai, kend) ∧
      ∀ (r p : ℕ) (hp : p < vlist.length) (c : ℕ) (hc : c < vlist[p].N),
        Ai r (varOffset vlist p + c) =
          if vlist[p].name ∈ vs
          then Ak r (k + vsOffset vlist vs (vlist[p].name) + c)
          else accF r (varOffset vlist p + c) := by
  intro vs
  induction vs with
  | nil =>
    intro _ _ accF k
    refine ⟨accF, k, rfl, ?_⟩
    intro r p hp c hc
    simp
  | cons nm rest ih =>
    intro hvs hvsnd accF k
    rcases hvs nm (List.mem_cons_self nm rest) with ⟨p₀, hp₀, hname₀⟩
    rcases List.nodup_cons.mp hvsnd with ⟨hnmrest, hndrest⟩
    have hget : (buildModel vlist clist).get_var nm =
        some { vlist[p₀] with
               i1 := varOffset vlist p₀,
               iN := varOffset vlist p₀ + vlist[p₀].N - 1 } := by
      rw [← hname₀]
      exact get_var_buildModel vlist clist hvnd hcnd p₀ hp₀
    have hstep : fillStep (buildModel vlist clist) Ak (accF, k) nm =
        some (fun r c =>
                if varOffset vlist p₀ ≤ c ∧
                    c < varOffset vlist p₀ + vlist[p₀].N
                then Ak r (k + (c - varOffset vlist p₀)) else accF r c,
              k + vlist[p₀].N) := by
      rw [fillStep, hget]
      rfl
    rcases ih (fun s hs => hvs s (List.mem_cons_of_mem nm hs)) hndrest
        (fun r c =>
          if varOffset vlist p₀ ≤ c ∧ c < varOffset vlist p₀ + vlist[p₀].N
          then Ak r (k + (c - varOffset vlist p₀)) else accF r c)
        (k + vlist[p₀].N) with ⟨Ai, kend, hfold, hchar⟩
    refine ⟨Ai, kend, ?_, ?_⟩
    · rw [List.foldlM_cons, hstep]
      exact hfold
    · intro r p hp c hc
      by_cases hhead : vlist[p].name = nm
      · have hpp : p = p₀ := by
          have hp' : p < (vlist.map Variable.name).length := by simpa using hp
          have hp0' : p₀ < (vlist.map Variable.name).length := by
            simpa using hp₀
          have h1 : (vlist.map Variable.name)[p] =
              (vlist.map Variable.name)[p₀] := by
            rw [List.getElem_map, List.getElem_map, hhead, hname₀]
          exact (List.Nodup.getElem_inj_iff hvnd).mp h1
        subst hpp
        have hnotrest : vlist[p].name ∉ rest := by
          rw [hhead]; exact hnmrest
        rw [hchar r p hp c hc, if_neg hnotrest]
        have hin : varOffset vlist p ≤ varOffset vlist p + c ∧
            varOffset vlist p + c < varOffset vlist p + vlist[p].N := by
          omega
        rw [if_pos hin, if_pos (by rw [hhead]; exact List.mem_cons_self nm rest)]
        rw [hhead, vsOffset_head]
        congr 1
        omega
      · by_cases hrest : vlist[p].name ∈ rest
        · rw [hchar r p hp c hc, if_pos hrest,
              if_pos (List.mem_cons_of_mem nm hrest),
              vsOffset_tail vlist nm (vlist[p].name) rest hhead]
          have hvarN : varN vlist nm = vlist[p₀].N := by
            rw [varN, ← hname₀, find_name_nodup vlist p₀ hp₀ hvnd]
            rfl
          rw [hvarN]
          congr 1
          omega
        · have hnot : vlist[p].name ∉ nm :: rest := by
            intro hmem
            rcases List.mem_cons.mp hmem with h | h
            · exact hhead h
            · exact hrest h
          rw [hchar r p hp c hc, if_neg hrest, if_neg hnot]
          have hpne : p ≠ p₀ := by
            intro he
            apply hhead
            subst he
            exact hname₀
          have hnotin : ¬(varOffset vlist p₀ ≤ varOffset vlist p + c ∧
              varOffset vlist p + c <
                varOffset vlist p₀ + vlist[p₀].N) := by
            intro hcontra
            exact hpne ((varOffset_range_iff vlist hp hp₀ hc).mp hcontra)
          rw [if_neg hnotin]

theorem conOffset_zero (clist : List LinearConstraint) :
    conOffset clist 0 = 0 := rfl

theorem conOffset_cons_succ (cb : LinearConstraint)
    (rest : List LinearConstraint) (q : ℕ) :
    conOffset (cb :: rest) (q + 1) = cb.N + conOffset rest q := by
  simp [conOffset, List.take_succ_cons]

/-- Characterisation of the outer loop of `linear_constraints` over
constraint blocks carrying consecutively assigned row ranges starting at
`base`: rows below `base` keep the incoming accumulator values, and each
block's rows hold the block's row bounds and its filled coefficient rows. -/
theorem linFold_spec (vlist : List Variable) (clist : List LinearConstraint)
    (hvnd : (vlist.map Variable.name).Nodup)
    (hcnd : (clist.map LinearConstraint.name).Nodup) :
    ∀ (cs : List LinearConstraint)
      (hvs : ∀ cb ∈ cs,
        (∀ nm ∈ cb.vs, ∃ p, ∃ hp : p < vlist.length, vlist[p].name = nm) ∧
          cb.vs.Nodup)
      (base : ℕ) (acc : (ℕ → ℕ → ℚ) × (ℕ → XR) × (ℕ → XR)),
    ∃ A l u,
      (assignCons base cs).foldlM (applyLin (buildModel vlist clist)) acc =
        some (A, l, u) ∧
      (∀ rr, rr < base →
        (∀ cc, A rr cc = acc.1 rr cc) ∧ l rr = acc.2.1 rr ∧
          u rr = acc.2.2 rr) ∧
      (∀ q (hq : q < cs.length) (r : ℕ) (hr : r < cs[q].N),
        l (base + conOffset cs q + r) = cs[q].l r ∧
        u (base + conOffset cs q + r) = cs[q].u r ∧
        ∃ Ai kend,
          fillVarCols (buildModel vlist clist) cs[q].A cs[q].vs =
            some (Ai, kend) ∧
          ∀ cc, A (base + conOffset cs q + r) cc = Ai r cc) := by
  intro cs
  induction cs with
  | nil =>
    intro _ base acc
    refine ⟨acc.1, acc.2.1, acc.2.2, rfl, ?_, ?_⟩
    · intro rr _; exact ⟨fun _ => rfl, rfl, rfl⟩
    · intro q hq; cases hq
  | cons cb rest ih =>
    intro hvs base acc
    by_cases hN : cb.N = 0
    · rcases ih (fun c hc => hvs c (List.mem_cons_of_mem cb hc))
          (base + cb.N) acc with ⟨A, l, u, hfold, hbelow, hblocks⟩
      refine ⟨A, l, u, ?_, ?_, ?_⟩
      · show ((
          { cb with i1 := base, iN := base + cb.N - 1 } ::
            assignCons (base + cb.N) rest).foldlM
            (applyLin (buildModel vlist clist)) acc) = some (A, l, u)
        rw [List.foldlM_cons]
        have happ : applyLin (buildModel vlist clist) acc
            { cb with i1 := base, iN := base + cb.N - 1 } = some acc := by
          rw [applyLin, if_pos hN]
        rw [happ]
        exact hfold
      · intro rr hrr
        exact hbelow rr (by omega)
      · intro q hq r hr
        cases q with
        | zero =>
          simp only [List.getElem_cons_zero] at hr
          omega
        | succ q' =>
          have hq' : q' < rest.length := by simpa using hq
          have := hblocks q' hq' r (by simpa using hr)
          rw [conOffset_cons_succ]
          have harith : base + (cb.N + conOffset rest q') + r =
              base + cb.N + conOffset rest q' + r := by omega
          rw [harith]
          simpa using this
    · rcases hvs cb (List.mem_cons_self cb rest) with ⟨hres, hnd⟩
      rcases fillFold_spec vlist clist hvnd hcnd cb.A cb.vs hres hnd
          (fun _ _ => (0 : ℚ)) 0 with ⟨Ai0, kend0, hfill, hfillchar⟩
      set acc1 : (ℕ → ℕ → ℚ) × (ℕ → XR) × (ℕ → XR) :=
        (fun r c => if base ≤ r ∧ r < base + cb.N
            then Ai0 (r - base) c else acc.1 r c,
         fun r => if base ≤ r ∧ r < base + cb.N
            then cb.l (r - base) else acc.2.1 r,
         fun r => if base ≤ r ∧ r < base + cb.N
            then cb.u (r - base) else acc.2.2 r) with hacc1
      rcases ih (fun c hc => hvs c (List.mem_cons_of_mem cb hc))
          (base + cb.N) acc1 with ⟨A, l, u, hfold, hbelow, hblocks⟩
      have happ : applyLin (buildModel vlist clist) acc
          { cb with i1 := base, iN := base + cb.N - 1 } = some acc1 := by
        rw [applyLin, if_neg hN]
        show (fillVarCols (buildModel vlist clist) cb.A cb.vs).bind _ =
          some acc1
        rw [show fillVarCols (buildModel vlist clist) cb.A cb.vs =
              some (Ai0, kend0) from hfill]
        rfl
      refine ⟨A, l, u, ?_, ?_, ?_⟩
      · show ((
          { cb with i1 := base, iN := base + cb.N - 1 } ::
            assignCons (base + cb.N) rest).foldlM
            (applyLin (buildModel vlist clist)) acc) = some (A, l, u)
        rw [List.foldlM_cons, happ]
        exact hfold
      · intro rr hrr
        have h1 := hbelow rr (by omega)
        have hout : ¬(base ≤ rr ∧ rr < base + cb.N) := by omega
        refine ⟨?_, ?_, ?_⟩
        · intro cc
          rw [(h1.1 cc)]
          show (if base ≤ rr ∧ rr < base + cb.N
              then Ai0 (rr - base) cc else acc.1 rr cc) = acc.1 rr cc
          rw [if_neg hout]
        · rw [h1.2.1]
          show (if base ≤ rr ∧ rr < base + cb.N
              then cb.l (rr - base) else acc.2.1 rr) = acc.2.1 rr
          rw [if_neg hout]
        · rw [h1.2.2]
          show (if base ≤ rr ∧ rr < base + cb.N
              then cb.u (rr - base) else acc.2.2 rr) = acc.2.2 rr
          rw [if_neg hout]
      · intro q hq r hr
        cases q with
        | zero =>
          simp only [List.getElem_cons_zero] at hr ⊢
          rw [conOffset_zero]
          have hrow : base + 0 + r = base + r := by omega
          rw [hrow]
          have hrowlt : base + r < base + cb.N := by omega
          have h1 := hbelow (base + r) hrowlt
          have hin : base ≤ base + r ∧ base + r < base + cb.N := by omega
          have hsub : base + r - base = r := by omega
          refine ⟨?_, ?_, ?_⟩
          · rw [h1.2.1]
            show (if base ≤ base + r ∧ base + r < base + cb.N
                then cb.l (base + r - base) else acc.2.1 (base + r)) = cb.l r
            rw [if_pos hin, hsub]
          · rw [h1.2.2]
            show (if base ≤ base + r ∧ base + r < base + cb.N
                then cb.u (base + r - base) else acc.2.2 (base + r)) = cb.u r
            rw [if_pos hin, hsub]
          · refine ⟨Ai0, kend0, hfill, ?_⟩
            intro cc
            rw [h1.1 cc]
            show (if base ≤ base + r ∧ base + r < base + cb.N
                then Ai0 (base + r - base) cc else acc.1 (base + r) cc) =
              Ai0 r cc
            rw [if_pos hin, hsub]
        | succ q' =>
          have hq' : q' < rest.length := by simpa using hq
          have := hblocks q' hq' r (by simpa using hr)
          rw [conOffset_cons_succ]
          have harith : base + (cb.N + conOffset rest q') + r =
              base + cb.N + conOffset rest q' + r := by omega
          rw [harith]
          simpa using this

/-- **C6.** On a model built by adding variable blocks and linear
constraint blocks with distinct names (each block declaring existing
variable blocks, without repetition), `linear_constraints()` succeeds and
returns `(A, l, u)` in which: each constraint block's rows are exactly
its assigned row range (consecutive, in addition order); within those
rows, the column range of each variable block the constraint declared
holds the block's own matrix columns (taken in declaration order), every
column of an undeclared variable block is zero; and `l`, `u` hold the
blocks' row bounds concatenated in the same row order. -/
theorem linear_constraints_spec (vlist : List Variable)
    (clist : List LinearConstraint)
    (hvnd : (vlist.map Variable.name).Nodup)
    (hcnd : (clist.map LinearConstraint.name).Nodup)
    (hvs : ∀ cb ∈ clist,
      (∀ nm ∈ cb.vs, ∃ p, ∃ hp : p < vlist.length, vlist[p].name = nm) ∧
        cb.vs.Nodup) :
    ∃ A l u,
      (buildModel vlist clist).linear_constraints = some (A, l, u) ∧
      ∀ q (hq : q < clist.length) (r : ℕ) (hr : r < clist[q].N),
        l (conOffset clist q + r) = clist[q].l r ∧
        u (conOffset clist q + r) = clist[q].u r ∧
        ∀ p (hp : p < vlist.length) (c : ℕ) (hc : c < vlist[p].N),
          A (conOffset clist q + r) (varOffset vlist p + c) =
            if vlist[p].name ∈ clist[q].vs
            then clist[q].A r (vsOffset vlist clist[q].vs (vlist[p].name) + c)
            else 0 := by
  have hlins : (buildModel vlist clist).lin_constraints =
      assignCons 0 clist := lin_constraints_buildModel vlist clist hcnd
  rcases linFold_spec vlist clist hvnd hcnd clist hvs 0
      (fun _ _ => (0 : ℚ), fun _ => XR.ninf, fun _ => XR.pinf) with
    ⟨A, l, u, hfold, hbelow, hblocks⟩
  refine ⟨A, l, u, ?_, ?_⟩
  · rw [OPFModel.linear_constraints, hlins]
    exact hfold
  · intro q hq r hr
    have h := hblocks q hq r hr
    simp only [Nat.zero_add] at h
    obtain ⟨hl, hu, Ai, kend, hfill, hA⟩ := h
    refine ⟨hl, hu, ?_⟩
    intro p hp c hc
    rw [hA (varOffset vlist p + c)]
    have hmemq : clist[q] ∈ clist := List.getElem_mem hq
    rcases fillFold_spec vlist clist hvnd hcnd clist[q].A clist[q].vs
        (hvs _ hmemq).1 (hvs _ hmemq).2 (fun _ _ => (0 : ℚ)) 0 with
      ⟨Ai2, kend2, hfill2, hchar2⟩
    have hsame : Ai = Ai2 := by
      have he : some (Ai, kend) = some (Ai2, kend2) := by
        rw [← hfill2]
        exact hfill.symm
      exact congrArg Prod.fst (Option.some.inj he)
    rw [hsame, hchar2 r p hp c hc]
    by_cases hmem : vlist[p].name ∈ clist[q].vs
    · rw [if_pos hmem, if_pos hmem]
      congr 1
      omega
    · rw [if_neg hmem, if_neg hmem]

/-- Variable blocks for the `linear_constraints_spec` witness. -/
def vlistW : List Variable :=
  [⟨"Va", 2, [], [], [], 0, 0⟩, ⟨"Pg", 1, [], [], [], 0, 0⟩]

/-- Constraint blocks for the `linear_constraints_spec` witness: one
single-row block declaring only `"Pg"`. -/
def clistW : List LinearConstraint :=
  [⟨"Pmis", 1, 1, fun _ _ => 7, fun _ => XR.fin 3, fun _ => XR.fin 4,
    ["Pg"], 0, 0⟩]

/-- Witness for `linear_constraints_spec` at `vlistW`/`clistW`. -/
theorem linear_constraints_spec_witness :
    ∃ A l u,
      (buildModel vlistW clistW).linear_constraints = some (A, l, u) ∧
      ∀ q (hq : q < clistW.length) (r : ℕ) (hr : r < clistW[q].N),
        l (conOffset clistW q + r) = clistW[q].l r ∧
        u (conOffset clistW q + r) = clistW[q].u r ∧
        ∀ p (hp : p < vlistW.length) (c : ℕ) (hc : c < vlistW[p].N),
          A (conOffset clistW q + r) (varOffset vlistW p + c) =
            if vlistW[p].name ∈ clistW[q].vs
            then clistW[q].A r
              (vsOffset vlistW clistW[q].vs (vlistW[p].name) + c)
            else 0 :=
  linear_constraints_spec vlistW clistW
    (by simp [vlistW]) (by simp [clistW])
    (by
      intro cb hcb
      simp only [clistW, List.mem_singleton] at hcb
      subst hcb
      refine ⟨?_, by simp⟩
      intro nm hnm
      rcases List.mem_singleton.mp hnm with rfl
      exact ⟨1, by simp [vlistW], rfl⟩)

end Pylon
